import Mathlib

/-!
# Verification of the scryer-prolog compilation core

Shallow embedding of the arithmetic number tower (`src/arithmetic.rs`), the
arithmetic expression compiler, the heap partial-string iterator and prefix
comparator (`src/machine/partial_string.rs`), and the clause/predicate code
generator (`src/codegen.rs`), together with theorems settling the frozen
claims about them.

Machine floats are modelled by an inductive `F64` carrying NaN, signed
infinity, or an exact rational value; rounding of reals (and of integer
conversions) to doubles is modelled by an explicit round-to-nearest-even /
round-toward-zero engine at the correct IEEE-754 binary64 granularity.
Negative zero is identified with zero (the code compares floats through
`OrderedFloat`, under which `-0.0 == 0.0`).
-/

/-- IEEE-754 binary64 value model: NaN, signed infinity, or a finite value
represented exactly as a rational. -/
inductive F64 where
  | nan : F64
  | inf (pos : Bool) : F64
  | finite (q : ℚ) : F64
deriving DecidableEq, Repr

/-- `f64::MAX` = (2^53 - 1) · 2^971. -/
def f64MAX : ℚ := mkRat (((2 ^ 53 - 1) * 2 ^ 971 : ℕ) : ℤ) 1

/-- Smallest positive normal double, 2⁻¹⁰²². -/
def f64MinNormal : ℚ := mkRat 1 (2 ^ 1022)

/-- Absolute value of a rational (spelled out so that the kernel can
evaluate it). -/
def qabs (q : ℚ) : ℚ := if q.num < 0 then -q else q

/-- `std::num::FpCategory`. -/
inductive FpCategory where
  | nan | infinite | zero | subnormal | normal
deriving DecidableEq, Repr

/-- `f64::classify` on the model. -/
def F64.classify : F64 → FpCategory
  | .nan => .nan
  | .inf _ => .infinite
  | .finite q =>
      if q = 0 then .zero
      else if qabs q < f64MinNormal then .subnormal
      else .normal

/-- Rounding mode of a conversion to double: `as f64` on integers rounds to
nearest (ties to even); GMP-backed `to_f64` on big integers and rationals
truncates toward zero. -/
inductive RMode where
  | nearestEven | towardZero
deriving DecidableEq, Repr

/-- Bit length of a natural number (fuel-structural so that the kernel can
evaluate it). -/
def nbitsF : ℕ → ℕ → ℕ
  | 0, _ => 0
  | f + 1, n => if n = 0 then 0 else nbitsF f (n / 2) + 1

def nbits (n : ℕ) : ℕ := nbitsF (n + 1) n

/-- Floor of log₂ of the absolute value of a nonzero rational, computed in
natural-number arithmetic. -/
def qlog2 (q : ℚ) : ℤ :=
  let a := q.num.natAbs
  let b := q.den
  let e0 : ℤ := (nbits a : ℤ) - (nbits b : ℤ)
  if a * 2 ^ (-e0).toNat < b * 2 ^ e0.toNat then e0 - 1 else e0

/-- Round a rational value to the nearest IEEE binary64 value under the given
rounding mode: significands carry 53 bits, exponents are clamped below at
-1022 (subnormal granularity 2⁻¹⁰⁷⁴), and magnitudes that round beyond
`f64MAX` overflow to infinity. The significand arithmetic is carried out on
naturals and the result is assembled with `mkRat`, so the function evaluates
inside the kernel. -/
def roundToF64 (mode : RMode) (q : ℚ) : F64 :=
  if q = 0 then .finite 0
  else
    let a := q.num.natAbs
    let b := q.den
    let e : ℤ := max (qlog2 q) (-1022)
    let t : ℤ := e - 52
    -- A / B = |q| / 2^t as a fraction of naturals
    let A := a * 2 ^ (-t).toNat
    let B := b * 2 ^ t.toNat
    let m : ℕ :=
      match mode with
      | .towardZero => A / B
      | .nearestEven =>
          let d := A / B
          let r := A % B
          if 2 * r < B then d else if B < 2 * r then d + 1
          else if d % 2 = 0 then d else d + 1
    let sgn : ℤ := if q.num < 0 then -1 else 1
    let v : ℚ := mkRat (sgn * ((m * 2 ^ t.toNat : ℕ) : ℤ)) (2 ^ (-t).toNat)
    if v = 0 then .finite 0
    else if f64MAX < qabs v then .inf (decide (0 ≤ q.num))
    else .finite v

/-- `n as f64` on an `i64` value (round to nearest, ties to even). -/
def intToF64 (n : ℤ) : F64 := roundToF64 .nearestEven (n : ℚ)

/-- `rug::Integer::to_f64` (GMP `mpz_get_d`, truncating). -/
def bigToF64 (z : ℤ) : F64 := roundToF64 .towardZero (z : ℚ)

/-- `rug::Rational::to_f64` (GMP `mpq_get_d`, truncating). -/
def ratToF64 (q : ℚ) : F64 := roundToF64 .towardZero q

/-- Hardware double division on the model. -/
def F64.div : F64 → F64 → F64
  | .nan, _ => .nan
  | _, .nan => .nan
  | .inf _, .inf _ => .nan
  | .inf s, .finite q => .inf (s = decide (0 ≤ q))
  | .finite _, .inf _ => .finite 0
  | .finite q1, .finite q2 =>
      if q2 = 0 then (if q1 = 0 then .nan else .inf (decide (0 < q1)))
      else roundToF64 .nearestEven (q1 / q2)

/-- The evaluation errors relevant to the number tower
(`machine_errors::EvalError`). -/
inductive EvalError where
  | zeroDivisor | floatOverflow | undefined
deriving DecidableEq, Repr

/-- `forms::Number`: the tagged numeric sum. `Fixnum` carries its `i64`
payload (`get_num`), `Integer` an arbitrary-precision integer, `Rational`
an arbitrary-precision rational, `Float` an ordered double. -/
inductive Number where
  | fixnum (n : ℤ)
  | integer (z : ℤ)
  | rational (q : ℚ)
  | float (f : F64)
deriving DecidableEq, Repr

/-- `rnd_f` -- floating point rounding function, 9.1.4.1
(`arithmetic.rs`). -/
def rnd_f : Number → F64
  | .fixnum n => intToF64 n
  | .integer z => bigToF64 z
  | .float f => f
  | .rational q => ratToF64 q

/-- `classify_float` (`arithmetic.rs`): keep `Normal|Zero` (and the
wildcard `Subnormal`) after rounding; keep an `Infinite` only when the
rounded value equals `f64::MAX`; `NaN` is `Undefined`. -/
def classify_float (f : F64) (round : Number → F64) : Except EvalError F64 :=
  match f.classify with
  | .normal => .ok (round (.float f))
  | .zero => .ok (round (.float f))
  | .infinite =>
      let f2 := round (.float f)
      if f2 = .finite f64MAX then .ok f2 else .error .floatOverflow
  | .nan => .error .undefined
  | _ => .ok (round (.float f))

/-- `result_f` -- floating point result function, 9.1.4.2. -/
def result_f (n : Number) (round : Number → F64) : Except EvalError F64 :=
  classify_float (rnd_f n) round

/-- `float_fn_to_f` (`arithmetic.rs`). -/
def float_fn_to_f (n : ℤ) : Except EvalError F64 :=
  classify_float (intToF64 n) rnd_f

/-- `float_i_to_f` (`arithmetic.rs`). -/
def float_i_to_f (z : ℤ) : Except EvalError F64 :=
  classify_float (bigToF64 z) rnd_f

/-- `float_r_to_f` (`arithmetic.rs`). -/
def float_r_to_f (q : ℚ) : Except EvalError F64 :=
  classify_float (ratToF64 q) rnd_f

/-- `div_f` (`arithmetic.rs`): a zero divisor is rejected before the
division is performed and classified. -/
def div_f (f1 f2 : F64) : Except EvalError F64 :=
  if f2.classify = FpCategory.zero then .error .zeroDivisor
  else classify_float (F64.div f1 f2) rnd_f

/-- Propagation skeleton of one division case: the first operand's
conversion error propagates first, then the second's, then the guarded
float division's; a successful result is wrapped as `Number::Float`.
This is exactly the `?`-operator chain of each arm of `impl Div<Number>
for Number`. -/
def divComposite (x y : Except EvalError F64) : Except EvalError Number :=
  match x with
  | .error e => .error e
  | .ok f1 =>
    match y with
    | .error e => .error e
    | .ok f2 =>
      match div_f f1 f2 with
      | .error e => .error e
      | .ok f => .ok (.float f)

/-- `impl Div<Number> for Number` (`arithmetic.rs`): every defined case
converts both operands to doubles (a `Float` operand is used as is) and
wraps the guarded float division. -/
def Number.div : Number → Number → Except EvalError Number
  | .fixnum n1, .fixnum n2 => divComposite (float_fn_to_f n1) (float_fn_to_f n2)
  | .fixnum n1, .integer n2 => divComposite (float_fn_to_f n1) (float_i_to_f n2)
  | .integer n1, .fixnum n2 => divComposite (float_i_to_f n1) (float_fn_to_f n2)
  | .fixnum n1, .rational n2 => divComposite (float_fn_to_f n1) (float_r_to_f n2)
  | .rational n1, .fixnum n2 => divComposite (float_r_to_f n1) (float_fn_to_f n2)
  | .fixnum n1, .float n2 => divComposite (float_fn_to_f n1) (.ok n2)
  | .float n1, .fixnum n2 => divComposite (.ok n1) (float_fn_to_f n2)
  | .integer n1, .integer n2 => divComposite (float_i_to_f n1) (float_i_to_f n2)
  | .integer n1, .float n2 => divComposite (float_i_to_f n1) (.ok n2)
  | .float n2, .integer n1 => divComposite (.ok n2) (float_i_to_f n1)
  | .integer n1, .rational n2 => divComposite (float_i_to_f n1) (float_r_to_f n2)
  | .rational n2, .integer n1 => divComposite (float_r_to_f n2) (float_i_to_f n1)
  | .rational n1, .float n2 => divComposite (float_r_to_f n1) (.ok n2)
  | .float n2, .rational n1 => divComposite (.ok n2) (float_r_to_f n1)
  | .float f1, .float f2 => divComposite (.ok f1) (.ok f2)
  | .rational r1, .rational r2 => divComposite (float_r_to_f r1) (float_r_to_f r2)

/-- `impl PartialEq for Number` (`arithmetic.rs`): exact comparison among
Fixnum/Integer/Rational; comparisons against a Float convert the other
operand to a double first and compare via `OrderedFloat`. -/
def numEq : Number → Number → Bool
  | .fixnum n1, .fixnum n2 => n1 = n2
  | .fixnum n1, .integer n2 => n1 = n2
  | .integer n1, .fixnum n2 => n1 = n2
  | .fixnum n1, .rational n2 => (n1 : ℚ) = n2
  | .rational n1, .fixnum n2 => n1 = (n2 : ℚ)
  | .fixnum n1, .float n2 => intToF64 n1 = n2
  | .float n1, .fixnum n2 => n1 = intToF64 n2
  | .integer n1, .integer n2 => n1 = n2
  | .integer n1, .float n2 => bigToF64 n1 = n2
  | .float n1, .integer n2 => n1 = bigToF64 n2
  | .integer n1, .rational n2 => (n1 : ℚ) = n2
  | .rational n1, .integer n2 => n1 = (n2 : ℚ)
  | .rational n1, .float n2 => ratToF64 n1 = n2
  | .float n1, .rational n2 => n1 = ratToF64 n2
  | .float f1, .float f2 => f1 = f2
  | .rational r1, .rational r2 => r1 = r2

/-- A `Number` not carrying a machine float. -/
def Number.noFloat : Number → Prop
  | .float _ => False
  | _ => True

/-- Exact rational value of a float-free `Number`. -/
def Number.exactVal : Number → ℚ
  | .fixnum n => (n : ℚ)
  | .integer z => (z : ℚ)
  | .rational q => q
  | .float _ => 0

set_option maxRecDepth 100000

/-- Conversion of a `Number` operand to a double as performed by the
division cases: `Fixnum` through `float_fn_to_f`, `Integer` through
`float_i_to_f`, `Rational` through `float_r_to_f`; a `Float` operand is
used as is. -/
def toF64e : Number → Except EvalError F64
  | .fixnum n => float_fn_to_f n
  | .integer z => float_i_to_f z
  | .rational q => float_r_to_f q
  | .float f => .ok f

theorem classify_float_ne_zeroDivisor (f : F64) (round : Number → F64) :
    classify_float f round ≠ .error .zeroDivisor := by
  unfold classify_float
  cases f.classify <;> simp <;> split <;> simp

theorem div_f_zeroDivisor_iff (f1 f2 : F64) :
    div_f f1 f2 = .error .zeroDivisor ↔ f2.classify = .zero := by
  unfold div_f
  split
  · simp [*]
  · simpa [*] using classify_float_ne_zeroDivisor (F64.div f1 f2) rnd_f

theorem divCompositeOk (x y : Except EvalError F64) (n : Number)
    (h : divComposite x y = .ok n) : ∃ f, n = .float f := by
  cases x with
  | error e => simp [divComposite] at h
  | ok f1 =>
    cases y with
    | error e => simp [divComposite] at h
    | ok f2 =>
      cases hz : div_f f1 f2 with
      | error e => simp [divComposite, hz] at h
      | ok f =>
        simp [divComposite, hz] at h
        exact ⟨f, h.symm⟩

theorem divCompositeZero (fa fb : F64) :
    (divComposite (.ok fa) (.ok fb) = .error .zeroDivisor ↔
      fb.classify = .zero) := by
  rw [← div_f_zeroDivisor_iff fa fb]
  cases hz : div_f fa fb with
  | error e => simp [divComposite, hz]
  | ok f => simp [divComposite, hz]

/-- Each arm of the `Div` implementation is the error-propagation composite
of the two operand conversions and the guarded float division. -/
theorem div_eq_composite (a b : Number) :
    Number.div a b = divComposite (toF64e a) (toF64e b) := by
  cases a <;> cases b <;> rfl

/-- C7: for every pair of Numbers `a` and `b`, the division `a / b` either
raises an error or returns a `Number::Float` -- never a Fixnum, Integer, or
Rational -- and, provided both operands convert to `f64` without error, it
raises `ZeroDivisor` if and only if `b`'s `f64` value classifies as zero. -/
theorem c7_div_always_float (a b : Number) :
    ((∃ e, Number.div a b = .error e) ∨ (∃ f, Number.div a b = .ok (.float f))) ∧
    (∀ fa fb, toF64e a = .ok fa → toF64e b = .ok fb →
      (Number.div a b = .error .zeroDivisor ↔ fb.classify = .zero)) := by
  constructor
  · cases h : Number.div a b with
    | error e => exact Or.inl ⟨e, rfl⟩
    | ok n =>
      right
      obtain ⟨f, rfl⟩ := divCompositeOk (toF64e a) (toF64e b) n
        (by rw [← div_eq_composite]; exact h)
      exact ⟨f, rfl⟩
  · intro fa fb ha hb
    rw [div_eq_composite, ha, hb]
    exact divCompositeZero fa fb

/-- Witness for C7: `1.0 / 0.0` with both conversions trivially succeeding;
the divisor classifies as zero and the division reports `ZeroDivisor`. -/
theorem c7_div_always_float_witness :
    toF64e (.float (.finite 1)) = .ok (.finite 1) ∧
    toF64e (.float (.finite 0)) = .ok (.finite 0) ∧
    (Number.div (.float (.finite 1)) (.float (.finite 0)) = .error .zeroDivisor ↔
      (F64.finite 0).classify = .zero) :=
  ⟨rfl, rfl, (c7_div_always_float (.float (.finite 1)) (.float (.finite 0))).2
      (.finite 1) (.finite 0) rfl rfl⟩

/-- C8: every floating-point value passed through the result classifier
behaves as follows: `Normal`, `Zero` and `Subnormal` values are kept
(returned after rounding); an `Infinite` value is kept only if its rounded
value equals `f64::MAX` and otherwise `FloatOverflow` is raised; a `NaN`
raises `Undefined`. -/
theorem c8_classify_float (f : F64) (round : Number → F64) :
    (f.classify = .nan → classify_float f round = .error .undefined) ∧
    ((f.classify = .normal ∨ f.classify = .zero ∨ f.classify = .subnormal) →
      classify_float f round = .ok (round (.float f))) ∧
    (f.classify = .infinite →
      (round (.float f) = .finite f64MAX →
        classify_float f round = .ok (.finite f64MAX)) ∧
      (round (.float f) ≠ .finite f64MAX →
        classify_float f round = .error .floatOverflow)) := by
  refine ⟨fun h => ?_, fun h => ?_, fun h => ⟨fun hr => ?_, fun hr => ?_⟩⟩
  · simp [classify_float, h]
  · rcases h with h | h | h <;> simp [classify_float, h]
  · simp [classify_float, h, hr]
  · simp [classify_float, h, hr]

/-- Witness for C8: NaN is rejected as `Undefined`, an infinity whose
rounded value is not `f64::MAX` overflows, and a kept zero. -/
theorem c8_classify_float_witness :
    (F64.nan.classify = .nan ∧ classify_float .nan rnd_f = .error .undefined) ∧
    ((F64.inf true).classify = .infinite ∧
      rnd_f (.float (.inf true)) ≠ .finite f64MAX ∧
      classify_float (.inf true) rnd_f = .error .floatOverflow) ∧
    ((F64.finite 0).classify = .zero ∧
      classify_float (.finite 0) rnd_f = .ok (rnd_f (.float (.finite 0)))) :=
  ⟨⟨rfl, (c8_classify_float .nan rnd_f).1 rfl⟩,
   ⟨rfl, by decide,
    ((c8_classify_float (.inf true) rnd_f).2.2 rfl).2 (by decide)⟩,
   ⟨by decide, (c8_classify_float (.finite 0) rnd_f).2.1 (Or.inr (Or.inl (by decide)))⟩⟩

/-- On float-free Numbers, `numEq` is exact value comparison. -/
theorem numEq_exact (a b : Number) (ha : a.noFloat) (hb : b.noFloat) :
    (numEq a b = true ↔ a.exactVal = b.exactVal) := by
  cases a <;> cases b <;>
    simp_all [numEq, Number.exactVal, Number.noFloat]

/-- C4 (counterexample): `Number` equality is not transitive.
`9007199254740992 = 2^53` and `9007199254740993 = 2^53 + 1` both convert
to the double `2^53.0` (`i64 as f64` rounds to nearest, ties to even), so
`Fixnum(2^53) == Float(2^53.0)` and `Float(2^53.0) == Fixnum(2^53 + 1)`
hold while `Fixnum(2^53) == Fixnum(2^53 + 1)` fails. -/
theorem c4_counterexample :
    numEq (.fixnum 9007199254740992) (.float (intToF64 9007199254740992)) = true ∧
    numEq (.float (intToF64 9007199254740992)) (.fixnum 9007199254740993) = true ∧
    numEq (.fixnum 9007199254740992) (.fixnum 9007199254740993) = false :=
  ⟨by decide, by decide, by decide⟩

/-- C4 (amended): `Number` equality is reflexive and symmetric; it is
transitive on the exact representations (no `Float` operand) and on
`Float`s alone; and `Fixnum(3) == Integer(3) == Rational(3/1) ==
Float(3.0)`. (Full transitivity fails across `Float`, see the
counterexample.) -/
theorem c4_number_eq_equivalence :
    (∀ a : Number, numEq a a = true) ∧
    (∀ a b : Number, numEq a b = numEq b a) ∧
    (∀ a b c : Number, a.noFloat → b.noFloat → c.noFloat →
      numEq a b = true → numEq b c = true → numEq a c = true) ∧
    (∀ f1 f2 f3 : F64, numEq (.float f1) (.float f2) = true →
      numEq (.float f2) (.float f3) = true →
      numEq (.float f1) (.float f3) = true) ∧
    (numEq (.fixnum 3) (.integer 3) = true ∧
     numEq (.integer 3) (.rational 3) = true ∧
     numEq (.rational 3) (.float (.finite 3)) = true ∧
     numEq (.fixnum 3) (.float (.finite 3)) = true) := by
  refine ⟨?_, ?_, ?_, ?_, by decide, by decide, by decide, by decide⟩
  · intro a; cases a <;> simp [numEq]
  · intro a b; cases a <;> cases b <;> simp [numEq, eq_comm]
  · intro a b c ha hb hc hab hbc
    rw [numEq_exact a b ha hb] at hab
    rw [numEq_exact b c hb hc] at hbc
    rw [numEq_exact a c ha hc]
    exact hab.trans hbc
  · intro f1 f2 f3 h12 h23
    simp only [numEq, decide_eq_true_eq] at h12 h23 ⊢
    exact h12.trans h23

/-- Witness for C4: transitivity applied across the three exact
representations of 1, and across three equal floats. -/
theorem c4_number_eq_equivalence_witness :
    numEq (.fixnum 1) (.rational 1) = true ∧
    numEq (.float (.finite 5)) (.float (.finite 5)) = true :=
  ⟨c4_number_eq_equivalence.2.2.1 (.fixnum 1) (.integer 1) (.rational 1)
      trivial trivial trivial (by decide) (by decide),
   c4_number_eq_equivalence.2.2.2.1 (.finite 5) (.finite 5) (.finite 5)
      (by decide) (by decide)⟩

/-! ## Arithmetic expression compiler (`src/arithmetic.rs`) -/

/-- `parser::ast::RegType`: `Temp(n)` or `Perm(n)`. -/
inductive RegType where
  | temp (n : ℕ)
  | perm (n : ℕ)
deriving DecidableEq, Repr

/-- `ArithmeticTerm` (`arithmetic.rs`): a compiled arithmetic operand. -/
inductive ArithmeticTerm where
  | reg (r : RegType)
  | interm (k : ℕ)
  | number (n : Number)
deriving DecidableEq, Repr

/-- `ArithmeticTerm::interm_or` (`arithmetic.rs`): the slot of an `Interm`
operand, or the supplied default. -/
def ArithmeticTerm.interm_or : ArithmeticTerm → ℕ → ℕ
  | .interm k, _ => k
  | _, i => i

/-- `NextOrFail` of the dynamic choice instructions. -/
inductive NextOrFail where
  | next (n : ℕ)
  | fail (n : ℕ)
deriving DecidableEq, Repr

/-- The instructions relevant to the verified fragment. The arithmetic
opcodes (`Add`, `Sub`, ..., `BitwiseComplement`) are collapsed into
`arith1`/`arith2` carrying the operator name, which is a bijective renaming
of the source constructors. `DynamicElse`/`DynamicInternalElse` always carry
`Death::Infinity` at the modelled emission sites, so the death field is
dropped. `indexingCode` abstracts an `IndexingCode` block by its entry
count. `generic` stands for any other instruction. -/
inductive Instr where
  | tryMeElse (o : ℕ)
  | retryMeElse (o : ℕ)
  | defaultRetryMeElse (o : ℕ)
  | trustMe (o : ℕ)
  | defaultTrustMe (o : ℕ)
  | dynamicElse (clock : ℕ) (nf : NextOrFail)
  | dynamicInternalElse (clock : ℕ) (nf : NextOrFail)
  | jmpByCall (o : ℕ)
  | indexingCode (entries : ℕ)
  | arith1 (op : String) (a1 : ArithmeticTerm) (t : ℕ)
  | arith2 (op : String) (a1 a2 : ArithmeticTerm) (t : ℕ)
  | proceed
  | putVariable (r : RegType) (arg : ℕ)
  | generic (tag : String)
deriving DecidableEq, Repr

/-- `ArithmeticError` (the variants raised by the expression compiler). -/
inductive ArithmeticError where
  | uninstantiatedVar
  | nonEvaluableFunctor (name : String) (arity : ℕ)
deriving DecidableEq, Repr

/-- The unary operator table of `get_unary_instr`. -/
def unaryOps : List String :=
  ["abs", "-", "+", "cos", "sin", "tan", "log", "exp", "sqrt", "acos",
   "asin", "atan", "float", "truncate", "round", "ceiling", "floor",
   "sign", "\\"]

/-- The binary operator table of `get_binary_instr`. -/
def binaryOps : List String :=
  ["+", "-", "/", "//", "max", "min", "div", "rdiv", "*", "**", "^",
   ">>", "<<", "/\\", "\\/", "xor", "mod", "rem", "gcd", "atan2"]

/-- `ArithmeticEvaluator::get_unary_instr`. -/
def get_unary_instr (name : String) (a1 : ArithmeticTerm) (t : ℕ) :
    Except ArithmeticError Instr :=
  if unaryOps.contains name then .ok (.arith1 name a1 t)
  else .error (.nonEvaluableFunctor name 1)

/-- `ArithmeticEvaluator::get_binary_instr`. -/
def get_binary_instr (name : String) (a1 a2 : ArithmeticTerm) (t : ℕ) :
    Except ArithmeticError Instr :=
  if binaryOps.contains name then .ok (.arith2 name a1 a2 t)
  else .error (.nonEvaluableFunctor name 2)

/-- The mutable state of `ArithmeticEvaluator`: the operand stack (head =
top, mirroring the `Vec` end) and the next free intermediate slot. -/
structure ArithEvalSt where
  interm : List ArithmeticTerm
  interm_c : ℕ
deriving DecidableEq, Repr

/-- `ArithmeticEvaluator::incr_interm`. -/
def incr_interm (st : ArithEvalSt) : ℕ × ArithEvalSt :=
  (st.interm_c, ⟨.interm st.interm_c :: st.interm, st.interm_c + 1⟩)

/-- `ArithmeticEvaluator::instr_from_clause`. `none` models the `unwrap`
panic on an underfull operand stack (unreachable from well-formed
traversals). -/
def instr_from_clause (name : String) (arity : ℕ) (st : ArithEvalSt) :
    Option (Except ArithmeticError (Instr × ArithEvalSt)) :=
  match arity, st.interm with
  | 1, a1 :: rest =>
      if a1.interm_or 0 = 0 then
        let p := incr_interm ⟨rest, st.interm_c⟩
        some ((get_unary_instr name a1 p.1).map fun i => (i, p.2))
      else
        some ((get_unary_instr name a1 (a1.interm_or 0)).map
          fun i => (i, ⟨a1 :: rest, st.interm_c⟩))
  | 1, [] => none
  | 2, a2 :: a1 :: rest =>
      let min_i := min (a1.interm_or 0) (a2.interm_or 0)
      if min_i = 0 then
        let max_i := max (a1.interm_or 0) (a2.interm_or 0)
        if max_i = 0 then
          let p := incr_interm ⟨rest, st.interm_c⟩
          some ((get_binary_instr name a1 a2 p.1).map fun i => (i, p.2))
        else
          some ((get_binary_instr name a1 a2 max_i).map
            fun i => (i, ⟨.interm max_i :: rest, max_i + 1⟩))
      else
        some ((get_binary_instr name a1 a2 min_i).map
          fun i => (i, ⟨.interm min_i :: rest, min_i + 1⟩))
  | 2, _ => none
  | _, _ => some (.error (.nonEvaluableFunctor name arity))

/-- Destination slot of an emitted arithmetic instruction. -/
def destSlot : Instr → Option ℕ
  | .arith1 _ _ t => some t
  | .arith2 _ _ _ t => some t
  | _ => none

theorem get_unary_instr_dest (name : String) (a : ArithmeticTerm) (t : ℕ)
    (i : Instr) (h : get_unary_instr name a t = .ok i) :
    destSlot i = some t := by
  unfold get_unary_instr at h
  split at h
  · cases h; rfl
  · cases h

theorem get_binary_instr_dest (name : String) (a1 a2 : ArithmeticTerm)
    (t : ℕ) (i : Instr) (h : get_binary_instr name a1 a2 t = .ok i) :
    destSlot i = some t := by
  unfold get_binary_instr at h
  split at h
  · cases h; rfl
  · cases h

/-- C9: a unary operator's destination slot reuses its operand's `Interm`
slot when the operand is an `Interm` and otherwise allocates the next fresh
intermediate slot; a binary operator's destination reuses the
smallest-numbered `Interm` slot among its two operands when at least one
operand is an `Interm`, and otherwise allocates a fresh slot. (Intermediate
slots produced by the evaluator are numbered from `target_int ≥ 1`, whence
the positivity hypotheses.) -/
theorem c9_interm_slot_selection :
    (∀ (name : String) (st : ArithEvalSt) (a1 : ArithmeticTerm) rest i st2,
      st.interm = a1 :: rest →
      (∀ k, a1 = .interm k → 0 < k) →
      instr_from_clause name 1 st = some (.ok (i, st2)) →
      destSlot i = some (match a1 with
        | .interm k => k
        | _ => st.interm_c)) ∧
    (∀ (name : String) (st : ArithEvalSt) (a1 a2 : ArithmeticTerm) rest i st2,
      st.interm = a2 :: a1 :: rest →
      (∀ k, a1 = .interm k → 0 < k) →
      (∀ k, a2 = .interm k → 0 < k) →
      instr_from_clause name 2 st = some (.ok (i, st2)) →
      destSlot i = some (match a1, a2 with
        | .interm k1, .interm k2 => min k1 k2
        | .interm k1, _ => k1
        | _, .interm k2 => k2
        | _, _ => st.interm_c)) := by
  constructor
  · intro name st a1 rest i st2 hst hpos h
    simp only [instr_from_clause, hst] at h
    cases a1 with
    | interm k =>
      have hk : 0 < k := hpos k rfl
      simp only [ArithmeticTerm.interm_or] at h
      rw [if_neg (by omega)] at h
      cases hg : get_unary_instr name (.interm k) k with
      | error e => rw [hg] at h; simp [Except.map] at h
      | ok i0 =>
        rw [hg] at h; simp [Except.map] at h
        obtain ⟨h1, _⟩ := h
        subst h1
        exact get_unary_instr_dest name _ k i0 hg
    | reg r =>
      simp only [ArithmeticTerm.interm_or, if_pos rfl, incr_interm] at h
      cases hg : get_unary_instr name (.reg r) st.interm_c with
      | error e => rw [hg] at h; simp [Except.map] at h
      | ok i0 =>
        rw [hg] at h; simp [Except.map] at h
        obtain ⟨h1, _⟩ := h
        subst h1
        exact get_unary_instr_dest name _ _ i0 hg
    | number n =>
      simp only [ArithmeticTerm.interm_or, if_pos rfl, incr_interm] at h
      cases hg : get_unary_instr name (.number n) st.interm_c with
      | error e => rw [hg] at h; simp [Except.map] at h
      | ok i0 =>
        rw [hg] at h; simp [Except.map] at h
        obtain ⟨h1, _⟩ := h
        subst h1
        exact get_unary_instr_dest name _ _ i0 hg
  · intro name st a1 a2 rest i st2 hst hpos1 hpos2 h
    simp only [instr_from_clause, hst] at h
    have key : ∀ (t : ℕ) (s : ArithEvalSt),
        some ((get_binary_instr name a1 a2 t).map (fun i0 => (i0, s))) =
          some (Except.ok (i, st2)) →
        destSlot i = some t := by
      intro t s ht
      rw [Option.some_inj] at ht
      cases hg : get_binary_instr name a1 a2 t with
      | error e => rw [hg] at ht; simp [Except.map] at ht
      | ok i0 =>
        rw [hg] at ht; simp [Except.map] at ht
        obtain ⟨h1, _⟩ := ht
        subst h1
        exact get_binary_instr_dest name _ _ t i0 hg
    cases a1 with
    | interm k1 =>
      have hk1 : 0 < k1 := hpos1 k1 rfl
      cases a2 with
      | interm k2 =>
        have hk2 : 0 < k2 := hpos2 k2 rfl
        simp only [ArithmeticTerm.interm_or] at h
        rw [if_neg (by omega)] at h
        simpa using key _ _ h
      | reg r =>
        simp only [ArithmeticTerm.interm_or] at h
        rw [if_pos (by omega), if_neg (by omega)] at h
        simpa using key _ _ h
      | number n =>
        simp only [ArithmeticTerm.interm_or] at h
        rw [if_pos (by omega), if_neg (by omega)] at h
        simpa using key _ _ h
    | reg r =>
      cases a2 with
      | interm k2 =>
        have hk2 : 0 < k2 := hpos2 k2 rfl
        simp only [ArithmeticTerm.interm_or] at h
        rw [if_pos (by omega), if_neg (by omega)] at h
        simpa using key _ _ h
      | reg r2 =>
        simp only [ArithmeticTerm.interm_or, incr_interm] at h
        rw [if_pos (by omega), if_pos (by omega)] at h
        simpa using key _ _ h
      | number n2 =>
        simp only [ArithmeticTerm.interm_or, incr_interm] at h
        rw [if_pos (by omega), if_pos (by omega)] at h
        simpa using key _ _ h
    | number n =>
      cases a2 with
      | interm k2 =>
        have hk2 : 0 < k2 := hpos2 k2 rfl
        simp only [ArithmeticTerm.interm_or] at h
        rw [if_pos (by omega), if_neg (by omega)] at h
        simpa using key _ _ h
      | reg r2 =>
        simp only [ArithmeticTerm.interm_or, incr_interm] at h
        rw [if_pos (by omega), if_pos (by omega)] at h
        simpa using key _ _ h
      | number n2 =>
        simp only [ArithmeticTerm.interm_or, incr_interm] at h
        rw [if_pos (by omega), if_pos (by omega)] at h
        simpa using key _ _ h

/-- Witness for C9: `-` over stack top `Interm 3` reuses slot 3;
`+` over `Number 2, Interm 5` (at least one `Interm`) reuses slot 5. -/
theorem c9_interm_slot_selection_witness :
    destSlot (.arith1 "-" (.interm 3) 3) = some 3 ∧
    destSlot (.arith2 "+" (.interm 5) (.number (.fixnum 2)) 5) = some 5 :=
  ⟨c9_interm_slot_selection.1 "-" ⟨[.interm 3], 7⟩ (.interm 3) []
      (.arith1 "-" (.interm 3) 3) ⟨[.interm 3], 7⟩ rfl
      (fun k hk => by cases hk; decide) rfl,
   c9_interm_slot_selection.2 "+" ⟨[.number (.fixnum 2), .interm 5], 7⟩
      (.interm 5) (.number (.fixnum 2)) []
      (.arith2 "+" (.interm 5) (.number (.fixnum 2)) 5) ⟨[.interm 5], 6⟩ rfl
      (fun k hk => by cases hk; decide) (fun k hk => by cases hk) rfl⟩

/-! ## Tagged heap cells (`types.rs` / `machine/heap.rs` collaborators)

The cell type, the out-of-range read default, dereferencing and the string
terminator test live outside the excerpt; they are modelled from the spec
(section 3 "Tagged heap cell", section 4.1 "Dereference policy"). -/

/-- Modelled from the spec: `HeapCellValue`, a tagged cell. Atom payloads
are represented by their interned string; `consC` stands for the opaque
arena pointers. -/
inductive Cell where
  | var (h : ℕ)
  | attrVar (h : ℕ)
  | lis (h : ℕ)
  | str (h : ℕ)
  | atomC (name : String) (arity : ℕ)
  | pstr (a : String)
  | cstr (a : String)
  | pstrLoc (h : ℕ)
  | pstrOffset (h : ℕ)
  | fixnumC (n : ℤ)
  | charC (c : Char)
  | f64C (f : F64)
  | consC (tag : String)
deriving DecidableEq, Repr

/-- `empty_list_as_cell!()`. -/
def emptyList : Cell := .atomC "[]" 0

/-- Heap read. An out-of-range index (a panic in the implementation) is
totalised to a fresh zero-arity atom on which every traversal stops. -/
def readCell (heap : List Cell) (i : ℕ) : Cell :=
  heap.getD i (.atomC "$out_of_range" 0)

/-- `Var`/`AttrVar` tag test. -/
def Cell.isVarCell : Cell → Bool
  | .var _ => true
  | .attrVar _ => true
  | _ => false

/-- Modelled from the spec: `heap_bound_deref`/`heap_bound_store`
composition -- follow variable bindings until an unbound (self-referential)
variable or a non-reference cell is reached. Fuelled so that the function
is total; the fuel is irrelevant on the acyclic heaps the compiler reads. -/
def derefCell (heap : List Cell) : ℕ → Cell → Cell
  | 0, c => c
  | fuel + 1, c =>
      match c with
      | .var h => if readCell heap h = c then c else derefCell heap fuel (readCell heap h)
      | .attrVar h => if readCell heap h = c then c else derefCell heap fuel (readCell heap h)
      | _ => c

/-! ## Choice-instruction emission (`src/codegen.rs`) -/

/-- `CompilationError` (the variants relevant to the code generator). -/
inductive CompilationError where
  | exceededMaxArity
  | otherErr (tag : String)
deriving DecidableEq, Repr

/-- `CodeGenSettings` (`codegen.rs`). -/
structure CodeGenSettings where
  global_clock_tick : Option ℕ
  is_extensible : Bool
  non_counted_bt : Bool
deriving DecidableEq, Repr

/-- `CodeGenSettings::is_dynamic`. -/
def CodeGenSettings.is_dynamic (s : CodeGenSettings) : Bool :=
  s.global_clock_tick.isSome

/-- `CodeGenSettings::internal_try_me_else`. -/
def CodeGenSettings.internal_try_me_else (s : CodeGenSettings) (offset : ℕ) : Instr :=
  match s.global_clock_tick with
  | some t => .dynamicInternalElse t (if offset = 0 then .next 0 else .next offset)
  | none => .tryMeElse offset

/-- `CodeGenSettings::try_me_else`. -/
def CodeGenSettings.try_me_else (s : CodeGenSettings) (offset : ℕ) : Instr :=
  match s.global_clock_tick with
  | some t => .dynamicElse t (if offset = 0 then .next 0 else .next offset)
  | none => .tryMeElse offset

/-- `CodeGenSettings::internal_retry_me_else`. -/
def CodeGenSettings.internal_retry_me_else (s : CodeGenSettings) (offset : ℕ) : Instr :=
  match s.global_clock_tick with
  | some t => .dynamicInternalElse t (if offset = 0 then .next 0 else .next offset)
  | none => .retryMeElse offset

/-- `CodeGenSettings::retry_me_else`. -/
def CodeGenSettings.retry_me_else (s : CodeGenSettings) (offset : ℕ) : Instr :=
  match s.global_clock_tick with
  | some t => .dynamicElse t (if offset = 0 then .next 0 else .next offset)
  | none =>
      if s.non_counted_bt then .defaultRetryMeElse offset else .retryMeElse offset

/-- `CodeGenSettings::internal_trust_me`. -/
def CodeGenSettings.internal_trust_me (s : CodeGenSettings) : Instr :=
  match s.global_clock_tick with
  | some t => .dynamicInternalElse t (.fail 0)
  | none => if s.non_counted_bt then .defaultTrustMe 0 else .trustMe 0

/-- `CodeGenSettings::trust_me`. -/
def CodeGenSettings.trust_me (s : CodeGenSettings) : Instr :=
  match s.global_clock_tick with
  | some t => .dynamicElse t (.fail 0)
  | none => if s.non_counted_bt then .defaultTrustMe 0 else .trustMe 0

/-- `branch_arm.last_mut().extend(combined_code)` of
`BranchCodeStack::pop_branch`: append the accumulated code to the last arm
of a branch frame. -/
def appendToLast (combined : List Instr) : List (List Instr) → List (List Instr)
  | [] => []
  | [a] => [a ++ combined]
  | a :: rest => a :: appendToLast combined rest

/-- The choice-header interleaving of `BranchCodeStack::pop_branch`: arm 0
is headed by the hard-coded `Instruction::TryMeElse(len+1)`, middle arms by
`settings.retry_me_else(len+1)`, the last arm by `settings.trust_me()`. -/
def wrapArms (settings : CodeGenSettings) (n : ℕ) : ℕ → List (List Instr) → List Instr
  | _, [] => []
  | idx, code :: rest =>
      ((if idx = 0 then Instr.tryMeElse (code.length + 1)
        else if idx + 1 < n then settings.retry_me_else (code.length + 1)
        else settings.trust_me) :: code) ++ wrapArms settings n (idx + 1) rest

/-- One iteration of the frame loop of `BranchCodeStack::pop_branch`. -/
def popBranchStep (settings : CodeGenSettings) (combined : List Instr)
    (frame : List (List Instr)) : List Instr :=
  match frame with
  | [] => combined
  | _ => wrapArms settings frame.length 0 (appendToLast combined frame)

/-- `BranchCodeStack::pop_branch`: drain the top `depth` branch frames,
folding them (innermost last) into one combined code sequence. Returns the
combined code and the remaining stack. -/
def pop_branch (settings : CodeGenSettings) (stack : List (List (List Instr)))
    (depth : ℕ) : List Instr × List (List (List Instr)) :=
  let keep := stack.length - depth
  ((stack.drop keep).reverse.foldl (popBranchStep settings) [], stack.take keep)

/-- The settings constructed at `ClauseItem::BranchEnd` in
`CodeGenerator::compile_seq`: the global clock tick is reset to `None` and
extensibility to `false` before the arms are wrapped. -/
def branch_end_settings (s : CodeGenSettings) : CodeGenSettings :=
  ⟨none, false, s.non_counted_bt⟩

/-- The code emitted for a disjunction at `ClauseItem::BranchEnd`. -/
def branchEndEmit (s : CodeGenSettings) (stack : List (List (List Instr)))
    (depth : ℕ) : List Instr :=
  (pop_branch (branch_end_settings s) stack depth).1

/-- Spec-side wrapping per the amended C5 claim: the first arm is headed by
`TryMeElse(len+1)`; every middle arm by `RetryMeElse(len+1)`
(`DefaultRetryMeElse` under non-counted backtracking); the last arm by
`TrustMe(0)` (`DefaultTrustMe(0)` under non-counted backtracking); a lone
arm is headed like a first arm. Dynamic variants never occur. -/
def wrapSpecGo (ncb : Bool) (first : Bool) : List (List Instr) → List Instr
  | [] => []
  | [code] =>
      ((if first then Instr.tryMeElse (code.length + 1)
        else if ncb then .defaultTrustMe 0 else .trustMe 0) :: code)
  | code :: rest =>
      ((if first then Instr.tryMeElse (code.length + 1)
        else if ncb then .defaultRetryMeElse (code.length + 1)
        else .retryMeElse (code.length + 1)) :: code) ++ wrapSpecGo ncb false rest

def wrapSpec (ncb : Bool) (arms : List (List Instr)) : List Instr :=
  wrapSpecGo ncb true arms

theorem appendToLast_nil (frame : List (List Instr)) :
    appendToLast [] frame = frame := by
  induction frame with
  | nil => rfl
  | cons a rest ih =>
    cases rest with
    | nil => simp [appendToLast]
    | cons b r2 => simpa [appendToLast] using ih

theorem wrapArms_eq_spec (s : CodeGenSettings) (hclock : s.global_clock_tick = none)
    (l : List (List Instr)) :
    ∀ (idx n : ℕ), idx + l.length = n → l ≠ [] →
      wrapArms s n idx l = wrapSpecGo s.non_counted_bt (idx = 0) l := by
  induction l with
  | nil => intro idx n _ hne; exact absurd rfl hne
  | cons code rest ih =>
    intro idx n hn _
    cases rest with
    | nil =>
      have hidx : ¬ (idx + 1 < n) := by simp at hn; omega
      simp only [wrapArms, wrapSpecGo, if_neg hidx]
      by_cases h0 : idx = 0
      · simp [h0]
      · simp [h0, CodeGenSettings.trust_me, hclock]
    | cons b r2 =>
      have hidx : idx + 1 < n := by simp at hn; omega
      have hne2 : (b :: r2 : List (List Instr)) ≠ [] := by simp
      have ih2 := ih (idx + 1) n (by simp at hn ⊢; omega) hne2
      have hstep : wrapArms s n idx (code :: b :: r2) =
          ((if idx = 0 then Instr.tryMeElse (code.length + 1)
            else if idx + 1 < n then s.retry_me_else (code.length + 1)
            else s.trust_me) :: code) ++ wrapArms s n (idx + 1) (b :: r2) := rfl
      have hspec : ∀ f : Bool, wrapSpecGo s.non_counted_bt f (code :: b :: r2) =
          ((if f then Instr.tryMeElse (code.length + 1)
            else if s.non_counted_bt then .defaultRetryMeElse (code.length + 1)
            else .retryMeElse (code.length + 1)) :: code) ++
            wrapSpecGo s.non_counted_bt false (b :: r2) := fun f => rfl
      rw [hstep, hspec, ih2, if_pos hidx]
      have hf : (decide (idx + 1 = 0)) = false := by simp
      rw [hf]
      by_cases h0 : idx = 0
      · simp [h0]
      · simp [h0, CodeGenSettings.retry_me_else, hclock]

/-- C5 (counterexample): for a dynamic predicate (`global_clock_tick =
Some 5`), the two arms of a disjunction are wrapped with the plain
`TryMeElse`/`TrustMe` -- `compile_seq` resets the clock tick to `None`
before calling `pop_branch`, and `pop_branch` hard-codes `TryMeElse` for
the first arm -- so no dynamic choice instruction is emitted. -/
theorem c5_counterexample :
    CodeGenSettings.is_dynamic ⟨some 5, false, false⟩ = true ∧
    branchEndEmit ⟨some 5, false, false⟩
        [[[.generic "put_constant a A1"], [.generic "put_constant b A1"]]] 1 =
      [.tryMeElse 2, .generic "put_constant a A1",
       .trustMe 0, .generic "put_constant b A1"] :=
  ⟨rfl, rfl⟩

/-- C5 (amended): at the end of a disjunction the arms are wrapped with
`TryMeElse` for the first arm, `retry_me_else` for middle arms and
`trust_me` for the last arm, resolved against settings whose dynamism has
been stripped (`compile_seq` resets `global_clock_tick` to `None` at
`BranchEnd`): non-counted backtracking selects the `Default` variants, and
the dynamic variants are never used, even for dynamic predicates. -/
theorem c5_branch_wrapping (s : CodeGenSettings) (arms : List (List Instr)) :
    branchEndEmit s [arms] 1 = wrapSpec s.non_counted_bt arms := by
  cases harms : arms with
  | nil => rfl
  | cons a rest =>
    show popBranchStep (branch_end_settings s) [] (a :: rest) = _
    unfold popBranchStep
    rw [appendToLast_nil]
    exact wrapArms_eq_spec (branch_end_settings s) rfl (a :: rest) 0
      (a :: rest).length (by simp) (by simp)

/-! ## Predicate splitting and compilation (`src/codegen.rs`) -/

/-- A clause as seen by `split_predicate`/`compile_pred_subseq`: its heap,
its optional argument cells (`PredicateClause::args`, `None` for a
zero-arity head). Clause bodies are compiled by a collaborator
(`compile_fact`/`compile_rule`), abstracted as a parameter below. -/
structure ClauseRepr where
  heap : List Cell
  args : Option (List Cell)
deriving DecidableEq, Repr

/-- `ClauseSpan` (`forms.rs`). -/
structure ClauseSpan where
  left : ℕ
  right : ℕ
  instantiated_arg_index : ℕ
deriving DecidableEq, Repr

/-- Deref fuel used by the splitter: one more than the clause heap size. -/
def ClauseRepr.deref (c : ClauseRepr) (cell : Cell) : Cell :=
  derefCell c.heap (c.heap.length + 1) cell

/-- Index of the first argument that dereferences to a non-variable, if
any (the inner loop of `split_predicate`). -/
def firstInstantiated (c : ClauseRepr) (args : List Cell) : Option ℕ :=
  (args.enum.find? fun p => !(c.deref p.2).isVarCell).map (·.1)

/-- One iteration of the clause loop of `CodeGenerator::split_predicate`,
transforming the state `(subseqs, left, optimal_index)`. -/
def splitBody (st : List ClauseSpan × ℕ × ℕ) (right : ℕ) (clause : ClauseRepr) :
    List ClauseSpan × ℕ × ℕ :=
  let subseqs := st.1
  let left := st.2.1
  let optimal := st.2.2
  let varCase : List ClauseSpan × ℕ × ℕ :=
    let subseqs2 := if left < right then subseqs ++ [⟨left, right, optimal⟩] else subseqs
    (subseqs2 ++ [⟨right, right + 1, 0⟩], right + 1, 0)
  match clause.args with
  | none => varCase
  | some args =>
    match firstInstantiated clause args with
    | none => varCase
    | some k =>
        if optimal ≠ k then
          if left ≥ right then (subseqs, left, k)
          else (subseqs ++ [⟨left, right, optimal⟩], right, k)
        else (subseqs, left, optimal)

/-- `CodeGenerator::split_predicate`. -/
def split_predicate (clauses : List ClauseRepr) : List ClauseSpan :=
  let st := clauses.enum.foldl (fun st p => splitBody st p.1 p.2) ([], 0, 0)
  if st.2.1 < clauses.length then
    st.1 ++ [⟨st.2.1, clauses.length, st.2.2⟩]
  else st.1

/-- Modelled from the spec: `CodeOffsets::compute_indices`
(`crate::indexing`, outside the excerpt) builds the
`SwitchOnTerm`/`SwitchOnConstant`/`SwitchOnStructure` dispatch block from
the first-argument cells collected by `index_term`; it produces no code
when no argument was indexed. The block is abstracted by its entry
count. -/
def compute_indices (entries : ℕ) : List Instr :=
  if entries = 0 then [] else [.indexingCode entries]

/-- Modelled from the spec: `CodeOffsets::index_term` collects an index
entry for a first argument that dereferences to a non-variable cell and
nothing for a variable. -/
def indexEntryCount (c : ClauseRepr) (arg : Cell) : ℕ :=
  if (c.deref arg).isVarCell then 0 else 1

/-- State of the clause loop of `compile_pred_subseq`: accumulated code and
collected index-entry count. -/
structure SubseqSt where
  code : List Instr
  entries : ℕ
deriving DecidableEq, Repr

/-- One iteration of the clause loop of `CodeGenerator::compile_pred_subseq`
(`i` is the clause's position, `clauses_len` the run length). -/
def subseqClauseStep (settings : CodeGenSettings) (clauses_len : ℕ)
    (optimal_index : ℕ) (st : SubseqSt) (i : ℕ) (clause : ClauseRepr)
    (clause_code : List Instr) : SubseqSt :=
  let code := st.code
  let code :=
    if clauses_len > 1 then
      code ++ [if i = 0 then settings.internal_try_me_else (clause_code.length + 1)
               else if i + 1 = clauses_len then settings.internal_trust_me
               else settings.internal_retry_me_else (clause_code.length + 1)]
    else if settings.is_extensible then
      settings.internal_try_me_else 0 :: code
    else code
  let entries :=
    match clause.args.bind fun args => args.get? optimal_index with
    | some arg =>
        if clauses_len > 1 ∨ settings.is_extensible then
          st.entries + indexEntryCount clause arg
        else st.entries
    | none => st.entries
  ⟨code ++ clause_code, entries⟩

/-- The clause loop of `compile_pred_subseq`, sequencing the abstracted
per-clause compilation `compileClause`. -/
def subseqLoop (compileClause : ClauseRepr → Except CompilationError (List Instr))
    (settings : CodeGenSettings) (clauses_len optimal_index : ℕ) :
    SubseqSt → ℕ → List ClauseRepr → Except CompilationError SubseqSt
  | st, _, [] => .ok st
  | st, i, clause :: rest =>
    match compileClause clause with
    | .error e => .error e
    | .ok clause_code =>
        subseqLoop compileClause settings clauses_len optimal_index
          (subseqClauseStep settings clauses_len optimal_index st i clause clause_code)
          (i + 1) rest

/-- `CodeGenerator::compile_pred_subseq`, with the per-clause compilation
(`compile_fact`/`compile_rule`) abstracted as `compileClause` and the
indexing collaborator modelled from the spec. After the loop: a non-empty
indexing block is pushed at the front; otherwise, for a single-clause
extensible predicate, the stub `try_me_else 0` emitted inside the loop is
popped again. -/
def compile_pred_subseq
    (compileClause : ClauseRepr → Except CompilationError (List Instr))
    (settings : CodeGenSettings) (clauses : List ClauseRepr)
    (optimal_index : ℕ) : Except CompilationError (List Instr) :=
  match subseqLoop compileClause settings clauses.length optimal_index ⟨[], 0⟩ 0 clauses with
  | .error e => .error e
  | .ok st =>
    let index_code :=
      if clauses.length > 1 ∨ settings.is_extensible then
        compute_indices st.entries
      else []
    if index_code ≠ [] then
      .ok (Instr.indexingCode st.entries :: st.code)
    else if clauses.length = 1 ∧ settings.is_extensible then
      .ok (st.code.drop 1)
    else .ok st.code

/-- The span loop of `CodeGenerator::compile_predicate`. -/
def predSpanLoop
    (compileClause : ClauseRepr → Except CompilationError (List Instr))
    (settings : CodeGenSettings) (clauses : List ClauseRepr) (multi : Bool) :
    List Instr → List ClauseSpan → Except CompilationError (List Instr)
  | code, [] => .ok code
  | code, span :: rest =>
    match compile_pred_subseq compileClause settings
        ((clauses.drop span.left).take (span.right - span.left))
        span.instantiated_arg_index with
    | .error e => .error e
    | .ok seg =>
      let code :=
        if multi then
          code ++ [if span.left = 0 then settings.try_me_else (seg.length + 1)
                   else if span.right = clauses.length then settings.trust_me
                   else settings.retry_me_else (seg.length + 1)]
        else if settings.is_extensible then
          code ++ [settings.try_me_else 0]
        else code
      predSpanLoop compileClause settings clauses multi (code ++ seg) rest

/-- `CodeGenerator::compile_predicate`. -/
def compile_predicate
    (compileClause : ClauseRepr → Except CompilationError (List Instr))
    (settings : CodeGenSettings) (clauses : List ClauseRepr) :
    Except CompilationError (List Instr) :=
  let split_pred := split_predicate clauses
  predSpanLoop compileClause settings clauses (split_pred.length > 1) [] split_pred

/-- A zero-offset placeholder choice instruction (`try_me_else 0` or its
dynamic equivalent). -/
def isPlaceholderChoice : Instr → Bool
  | .tryMeElse 0 => true
  | .dynamicElse _ (.next 0) => true
  | .dynamicInternalElse _ (.next 0) => true
  | _ => false

/-- C10: `compile_predicate` applied to an empty clause vector succeeds and
returns an empty instruction vector; `split_predicate` of an empty slice
produces no clause spans. -/
theorem c10_compile_predicate_empty :
    split_predicate [] = [] ∧
    ∀ (f : ClauseRepr → Except CompilationError (List Instr))
      (s : CodeGenSettings), compile_predicate f s [] = .ok [] :=
  ⟨rfl, fun _ _ => rfl⟩

/-- `split_predicate` of a single clause yields exactly one span covering
it. -/
theorem split_predicate_single (c : ClauseRepr) :
    ∃ k, split_predicate [c] = [⟨0, 1, k⟩] := by
  have h0 : split_predicate [c] =
      (if (splitBody ([], 0, 0) 0 c).2.1 < 1 then
        (splitBody ([], 0, 0) 0 c).1 ++
          [⟨(splitBody ([], 0, 0) 0 c).2.1, 1, (splitBody ([], 0, 0) 0 c).2.2⟩]
      else (splitBody ([], 0, 0) 0 c).1) := rfl
  rw [h0]
  unfold splitBody
  cases hargs : c.args with
  | none => exact ⟨0, by simp⟩
  | some args =>
    cases hfi : firstInstantiated c args with
    | none => exact ⟨0, by simp [hfi]⟩
    | some k =>
      by_cases hk : (0 : ℕ) = k
      · exact ⟨0, by simp [hfi, hk]⟩
      · exact ⟨k, by simp [hfi, hk]⟩

theorem try_me_else_placeholder (s : CodeGenSettings) :
    isPlaceholderChoice (s.try_me_else 0) = true := by
  unfold CodeGenSettings.try_me_else
  cases s.global_clock_tick <;> rfl

/-- C6 (counterexample): `compile_pred_subseq` on a single-clause
extensible predicate whose head has no indexable argument (here a
zero-arity clause) emits the stub inside the clause loop but removes it
again after `compute_indices` comes back empty: the returned code contains
no zero-offset placeholder. (`compile_predicate` re-adds an outer one; see
the amended theorem.) -/
theorem c6_counterexample :
    (⟨none, true, false⟩ : CodeGenSettings).is_extensible = true ∧
    compile_pred_subseq (fun _ => .ok [.proceed]) ⟨none, true, false⟩
      [⟨[], none⟩] 0 = .ok [.proceed] ∧
    ([Instr.proceed].any isPlaceholderChoice) = false :=
  ⟨rfl, rfl, rfl⟩

/-- C6 (amended): when `compile_predicate` compiles an extensible
single-clause predicate, the emitted code always contains a zero-offset
placeholder choice instruction (`try_me_else 0`, or its dynamic
equivalent), pushed at the predicate level; `compile_pred_subseq` alone may
first emit and then remove its inner stub when no indexing code is
generated (see the counterexample). -/
theorem c6_single_clause_placeholder
    (f : ClauseRepr → Except CompilationError (List Instr))
    (s : CodeGenSettings) (c : ClauseRepr) (out : List Instr)
    (hext : s.is_extensible = true)
    (h : compile_predicate f s [c] = .ok out) :
    out.any isPlaceholderChoice = true := by
  obtain ⟨k, hsplit⟩ := split_predicate_single c
  unfold compile_predicate at h
  rw [hsplit] at h
  simp only [List.length_cons, List.length_nil] at h
  unfold predSpanLoop at h
  cases hseg : compile_pred_subseq f s ((([c] : List ClauseRepr).drop 0).take (1 - 0)) k with
  | error e => rw [hseg] at h; simp at h
  | ok seg =>
    rw [hseg] at h
    simp only [show ¬ ((1 : ℕ) > 1) from by omega, if_false, hext, if_true] at h
    unfold predSpanLoop at h
    simp only [Except.ok.injEq] at h
    subst h
    simp only [List.any_append, List.any_cons, List.nil_append,
      try_me_else_placeholder, Bool.true_or, Bool.or_eq_true]
    left
    simp [try_me_else_placeholder]

/-- Witness for C6 (amended): a concrete extensible static single-clause
predicate; the emitted code is `[try_me_else 0, proceed]`. -/
theorem c6_single_clause_placeholder_witness :
    ([Instr.tryMeElse 0, Instr.proceed].any isPlaceholderChoice) = true :=
  c6_single_clause_placeholder (fun _ => .ok [.proceed]) ⟨none, true, false⟩
    ⟨[], none⟩ [Instr.tryMeElse 0, Instr.proceed] rfl rfl

/-! ## Heap partial-string iterator and comparator
(`src/machine/partial_string.rs`)

Atom payloads of `PStr`/`CStr` segments are compared as character lists and
offsets counted in characters; byte offsets of the implementation map to
character offsets monotonically and bijectively within a segment, prefix
tests and emptiness tests agree, and Rust's byte-wise `str` ordering equals
code-point lexicographic ordering (UTF-8 is order-preserving), so the two
views are observationally equivalent for the compiled comparisons. -/

/-- Modelled from the spec: `HeapCellValue::as_char` -- a `Char` cell, or a
zero-arity atom whose name is a single character. -/
def asChar : Cell → Option Char
  | .charC c => some c
  | .atomC name 0 =>
      match name.data with
      | [c] => some c
      | _ => none
  | _ => none

/-- Modelled from the spec: `is_string_terminator` -- the empty list, a
complete-string segment, or a `PStrOffset` into a complete string. -/
def isStringTerminator (heap : List Cell) : Cell → Bool
  | .atomC name arity => decide (name = "[]" ∧ arity = 0)
  | .cstr _ => true
  | .pstrOffset h =>
      match readCell heap h with
      | .cstr _ => true
      | _ => false
  | _ => false

/-- `PStrIteratee`. Segment offsets are character counts (see the section
comment). -/
inductive PStrIteratee where
  | charIt (focus : ℕ) (c : Char)
  | pstrSegment (focus : ℕ) (a : String) (n : ℕ)
deriving DecidableEq, Repr

/-- `PStrIteratee::focus`. -/
def PStrIteratee.focus : PStrIteratee → ℕ
  | .charIt f _ => f
  | .pstrSegment f _ _ => f

/-- `PStrIterStep`. -/
structure PStrIterStep where
  iteratee : PStrIteratee
  next_hare : ℕ
deriving DecidableEq, Repr

/-- `cell_as_atom!`: the atom payload of a cell (garbage extraction on
other tags is totalised to the empty atom). -/
def cellAtomStr : Cell → String
  | .pstr a => a
  | .cstr a => a
  | .atomC n _ => n
  | _ => ""

/-- `cell_as_fixnum!` (as `usize`). -/
def cellFixnumNat : Cell → ℕ
  | .fixnumC n => n.toNat
  | _ => 0

/-- `HeapPStrIter::step`, fuelled. The flag `fe` is the
`self.focus == empty_list_as_cell!()` test of the `CStr`/`PStrOffset`
branches. The outer `none` is fuel exhaustion: the Rust loop following
`PStrLoc`/`Var`/`AttrVar` links diverges on a cyclic chain; the inner
`none` is the `return None` of the source. -/
def stepF (heap : List Cell) (fe : Bool) : ℕ → ℕ → Option (Option PStrIterStep)
  | 0, _ => none
  | fuel + 1, curr =>
    match readCell heap curr with
    | .cstr a => some (if fe then none else some ⟨.pstrSegment curr a 0, curr⟩)
    | .pstrLoc h => stepF heap fe fuel h
    | .pstr a => some (some ⟨.pstrSegment curr a 0, curr + 1⟩)
    | .pstrOffset pstr_offset =>
        if fe then some none
        else
          let pstr_atom := cellAtomStr (readCell heap pstr_offset)
          let n := cellFixnumNat (readCell heap (curr + 1))
          match readCell heap pstr_offset with
          | .cstr _ => some (some ⟨.pstrSegment curr pstr_atom n, pstr_offset⟩)
          | _ => some (some ⟨.pstrSegment curr pstr_atom n, pstr_offset + 1⟩)
    | .lis h => some ((asChar (readCell heap h)).map fun c => ⟨.charIt curr c, h + 1⟩)
    | .str s =>
        some (match readCell heap s with
          | .atomC name arity =>
              if name = "." ∧ arity = 2 then
                (asChar (readCell heap (s + 1))).map fun c => ⟨.charIt curr c, s + 2⟩
              else none
          | _ => none)
    | .atomC _ _ => some none
    | .var h => if h = curr then some none else stepF heap fe fuel h
    | .attrVar h => if h = curr then some none else stepF heap fe fuel h
    | _ => some none

/-- Modelled from the spec: `BrentAlgState` (`machine/system_calls.rs`,
outside the excerpt) -- tortoise/hare with the power-of-two teleport
schedule over `lam`/`power`. -/
structure BrentAlgState where
  hare : ℕ
  tortoise : ℕ
  power : ℕ
  lam : ℕ
deriving DecidableEq, Repr

/-- `BrentAlgState::new`. -/
def BrentAlgState.new (h : ℕ) : BrentAlgState := ⟨h, h, 1, 0⟩

/-- Modelled from the spec: `BrentAlgState::step` -- move the hare and
count the step; a cycle is detected when the hare meets the tortoise (the
count then equals the cycle length); when the count reaches the power the
tortoise teleports to the hare and the power doubles. Returns the updated
state and the detection flag. -/
def BrentAlgState.step (st : BrentAlgState) (hare : ℕ) : BrentAlgState × Bool :=
  let lam := st.lam + 1
  if hare = st.tortoise then ({ st with hare := hare, lam := lam }, true)
  else if lam = st.power then (⟨hare, hare, st.power * 2, 0⟩, false)
  else ({ st with hare := hare, lam := lam }, false)

/-- The fields of `HeapPStrIter` used by `compare_pstr_prefixes` and
`is_continuable`. -/
structure CmpIterSt where
  heap : List Cell
  focus : Cell
  brent_st : BrentAlgState
deriving DecidableEq, Repr

/-- `HeapPStrIter::new` as seen by the comparator. -/
def mkCmpIter (heap : List Cell) (h : ℕ) : CmpIterSt :=
  ⟨heap, readCell heap h, BrentAlgState.new h⟩

/-- `i.step(hare)` with the focus-dependent flag and the standard fuel. -/
def stepOf (i : CmpIterSt) (hare : ℕ) : Option (Option PStrIterStep) :=
  stepF i.heap (decide (i.focus = emptyList)) (i.heap.length + 2) hare

/-- `consolidate_step` (local to `compare_pstr_prefixes`): advance the
focus to the next hare (collapsing terminators to the empty list) and feed
the hare to Brent's state; the returned flag is `true` when no cycle was
detected. -/
def consolidate_step (iter : CmpIterSt) (step : PStrIterStep) : CmpIterSt × Bool :=
  let f := readCell iter.heap step.next_hare
  let f := if isStringTerminator iter.heap f then emptyList else f
  let p := iter.brent_st.step step.next_hare
  ({ iter with focus := f, brent_st := p.1 }, !p.2)

/-- `HeapPStrIter::is_continuable`, fuelled (the source loop follows
`Var`/`AttrVar` links). -/
def is_continuableF (heap : List Cell) : ℕ → Cell → Bool
  | 0, _ => false
  | fuel + 1, focus =>
    match focus with
    | .cstr _ => true
    | .pstrLoc _ => true
    | .atomC name arity => decide (name = "." ∧ arity = 2)
    | .lis h => (asChar (readCell heap h)).isSome
    | .var h =>
        if readCell heap h = focus then false
        else is_continuableF heap fuel (readCell heap h)
    | .attrVar h =>
        if readCell heap h = focus then false
        else is_continuableF heap fuel (readCell heap h)
    | _ => false

def is_continuable (i : CmpIterSt) : Bool :=
  is_continuableF i.heap (i.heap.length + 2) i.focus

/-- `PStrCmpResult`. -/
inductive PStrCmpResult where
  | ordered (o : Ordering)
  | firstIterContinuable (it : PStrIteratee)
  | secondIterContinuable (it : PStrIteratee)
  | unordered
deriving DecidableEq, Repr

/-- `char::cmp`. -/
def chCmp (c1 c2 : Char) : Ordering :=
  if c1.val < c2.val then .lt else if c2.val < c1.val then .gt else .eq

/-- `str::cmp` as code-point lexicographic comparison. -/
def listCmp : List Char → List Char → Ordering
  | [], [] => .eq
  | [], _ :: _ => .lt
  | _ :: _, [] => .gt
  | c1 :: t1, c2 :: t2 =>
      match chCmp c1 c2 with
      | .eq => listCmp t1 t2
      | o => o

def natCmp (a b : ℕ) : Ordering :=
  if a < b then .lt else if b < a then .gt else .eq

/-- Outcome of one iteration of the lockstep loop. -/
inductive CmpLoopOut where
  | ret (r : PStrCmpResult)
  | brk (i1 i2 : CmpIterSt) (r1 r2 : Option PStrIterStep)
  | cont (i1 i2 : CmpIterSt) (r1 r2 : Option PStrIterStep)
  | stuck
deriving DecidableEq, Repr

/-- Both iterators consolidated: refresh each `r` whose consolidation
reported no cycle, then continue exactly when both did. -/
def twoWay (p1 p2 : CmpIterSt × Bool) (r1 r2 : Option PStrIterStep) : CmpLoopOut :=
  match (if p1.2 then stepOf p1.1 p1.1.brent_st.hare else some r1),
        (if p2.2 then stepOf p2.1 p2.1.brent_st.hare else some r2) with
  | some r1n, some r2n =>
      if p1.2 && p2.2 then .cont p1.1 p2.1 r1n r2n else .brk p1.1 p2.1 r1n r2n
  | _, _ => .stuck

/-- Only the first iterator consolidated (the second keeps its position,
possibly with an updated in-segment offset in `r2`). -/
def oneWay1 (p1 : CmpIterSt × Bool) (i2 : CmpIterSt)
    (r1old r2 : Option PStrIterStep) : CmpLoopOut :=
  if p1.2 then
    match stepOf p1.1 p1.1.brent_st.hare with
    | some r1n => .cont p1.1 i2 r1n r2
    | none => .stuck
  else .brk p1.1 i2 r1old r2

/-- Only the second iterator consolidated. -/
def oneWay2 (i1 : CmpIterSt) (r1 : Option PStrIterStep)
    (p2 : CmpIterSt × Bool) (r2old : Option PStrIterStep) : CmpLoopOut :=
  if p2.2 then
    match stepOf p2.1 p2.1.brent_st.hare with
    | some r2n => .cont i1 p2.1 r1 r2n
    | none => .stuck
  else .brk i1 p2.1 r1 r2old

/-- The body of the lockstep loop of `compare_pstr_prefixes`. -/
def cmpBody (i1 i2 : CmpIterSt) (r1 r2 : Option PStrIterStep) : CmpLoopOut :=
  match hr1 : r1, hr2 : r2 with
  | some step_1, some step_2 =>
    match step_1.iteratee, step_2.iteratee with
    | .charIt _ c1, .charIt _ c2 =>
        if c1 ≠ c2 then .ret (.ordered (chCmp c1 c2))
        else twoWay (consolidate_step i1 step_1) (consolidate_step i2 step_2) r1 r2
    | .charIt _ c1, .pstrSegment f2 a2 n =>
        match (a2.data.drop n).head? with
        | some c2 =>
            if c1 ≠ c2 then .ret (.ordered (chCmp c1 c2))
            else
              let n1 := n + 1
              if n1 < a2.length then
                oneWay1 (consolidate_step i1 step_1) i2 r1
                  (some ⟨.pstrSegment f2 a2 n1, step_2.next_hare⟩)
              else twoWay (consolidate_step i1 step_1) (consolidate_step i2 step_2) r1 r2
        | none => oneWay2 i1 r1 (consolidate_step i2 step_2) r2
    | .pstrSegment f1 a1 n, .charIt _ c2 =>
        match (a1.data.drop n).head? with
        | some c1 =>
            if c1 ≠ c2 then .ret (.ordered (chCmp c2 c1))
            else
              let n1 := n + 1
              if n1 < a1.length then
                oneWay2 i1 (some ⟨.pstrSegment f1 a1 n1, step_1.next_hare⟩)
                  (consolidate_step i2 step_2) r2
              else twoWay (consolidate_step i1 step_1) (consolidate_step i2 step_2) r1 r2
        | none => oneWay1 (consolidate_step i1 step_1) i2 r1 r2
    | .pstrSegment f1 a1 n1, .pstrSegment f2 a2 n2 =>
        if a1 = a2 ∧ n1 = n2 then
          twoWay (consolidate_step i1 step_1) (consolidate_step i2 step_2) r1 r2
        else
          let str1 := a1.data.drop n1
          let str2 := a2.data.drop n2
          match natCmp str1.length str2.length with
          | .eq =>
              if str1 = str2 then
                twoWay (consolidate_step i1 step_1) (consolidate_step i2 step_2) r1 r2
              else .ret (.ordered (listCmp str1 str2))
          | .lt =>
              if str1.isPrefixOf str2 then
                oneWay1 (consolidate_step i1 step_1) i2 r1
                  (some ⟨.pstrSegment f2 a2 (n2 + str1.length), step_2.next_hare⟩)
              else .ret (.ordered (listCmp str1 str2))
          | .gt =>
              if str2.isPrefixOf str1 then
                oneWay2 i1 (some ⟨.pstrSegment f1 a1 (n1 + str2.length), step_1.next_hare⟩)
                  (consolidate_step i2 step_2) r2
              else .ret (.ordered (listCmp str1 str2))
  | _, _ => .brk i1 i2 r1 r2

/-- The fuelled lockstep loop. -/
def cmpLoopF (heap_fuel : ℕ) (i1 i2 : CmpIterSt) (r1 r2 : Option PStrIterStep) :
    Option ((PStrCmpResult × CmpIterSt × CmpIterSt) ⊕
      (CmpIterSt × CmpIterSt × Option PStrIterStep × Option PStrIterStep)) :=
  match heap_fuel with
  | 0 => none
  | fuel + 1 =>
    match cmpBody i1 i2 r1 r2 with
    | .ret r => some (.inl (r, i1, i2))
    | .brk j1 j2 s1 s2 => some (.inr (j1, j2, s1, s2))
    | .cont j1 j2 s1 s2 => cmpLoopF fuel j1 j2 s1 s2
    | .stuck => none

/-- The post-loop classification of `compare_pstr_prefixes` (lines
760-777): equal focus cells compare `Equal`; an empty-list focus makes that
side the shorter; otherwise continuability decides (both continuable
compare `Equal`; a single continuable side is reported with its pending
iteratee, whose absence -- the `unwrap` -- is the `none` case); `Unordered`
only when neither side is continuable. -/
def cmpClassify (i1 i2 : CmpIterSt) (r1 r2 : Option PStrIterStep) :
    Option PStrCmpResult :=
  if i1.focus = i2.focus then some (.ordered .eq)
  else if i1.focus = emptyList then some (.ordered .lt)
  else if i2.focus = emptyList then some (.ordered .gt)
  else if is_continuable i1 then
    if is_continuable i2 then some (.ordered .eq)
    else match r1 with
      | some st => some (.firstIterContinuable st.iteratee)
      | none => none
  else if is_continuable i2 then
    match r2 with
    | some st => some (.secondIterContinuable st.iteratee)
    | none => none
  else some (.unordered)

/-- `compare_pstr_prefixes`, fuelled; also returns the final iterator
states. `none` models divergence of the underlying cell chasing (or fuel
exhaustion of the lockstep loop, which theorem hypotheses rule out). -/
def compare_pstr_prefixes (fuel : ℕ) (i1 i2 : CmpIterSt) :
    Option (PStrCmpResult × CmpIterSt × CmpIterSt) :=
  match stepOf i1 i1.brent_st.hare, stepOf i2 i2.brent_st.hare with
  | some r1, some r2 =>
    match cmpLoopF fuel i1 i2 r1 r2 with
    | none => none
    | some (.inl out) => some out
    | some (.inr (j1, j2, s1, s2)) =>
        (cmpClassify j1 j2 s1 s2).map fun res => (res, j1, j2)
  | _, _ => none

/-- Two structurally equal but physically distinct cyclic character lists
`X = [a|X]`: cells 0-2 and cells 3-5. -/
def hpC3 : List Cell := [.lis 1, .charC 'a', .var 0, .lis 4, .charC 'a', .var 3]

/-- C3 (counterexample): comparing the two cyclic lists of `hpC3`, the
lockstep loop exhausts (both Brent states detect their cycles) with focus
cells `Var 0` and `Var 3` -- distinct and neither the empty list -- and
`compare_pstr_prefixes` returns `Ordered(Equal)`, not `Unordered` as the
claim's "every other case" requires (both focuses are continuable). -/
theorem c3_counterexample :
    stepOf (mkCmpIter hpC3 0) 0 = some (some ⟨.charIt 0 'a', 2⟩) ∧
    stepOf (mkCmpIter hpC3 3) 3 = some (some ⟨.charIt 3 'a', 5⟩) ∧
    cmpLoopF 10 (mkCmpIter hpC3 0) (mkCmpIter hpC3 3)
        (some ⟨.charIt 0 'a', 2⟩) (some ⟨.charIt 3 'a', 5⟩) =
      some (.inr (⟨hpC3, .var 0, ⟨2, 2, 2, 1⟩⟩, ⟨hpC3, .var 3, ⟨5, 5, 2, 1⟩⟩,
        some ⟨.charIt 0 'a', 2⟩, some ⟨.charIt 3 'a', 5⟩)) ∧
    (Cell.var 0 ≠ Cell.var 3 ∧ Cell.var 0 ≠ emptyList ∧
      Cell.var 3 ≠ emptyList) ∧
    is_continuable ⟨hpC3, .var 0, ⟨2, 2, 2, 1⟩⟩ = true ∧
    is_continuable ⟨hpC3, .var 3, ⟨5, 5, 2, 1⟩⟩ = true ∧
    compare_pstr_prefixes 10 (mkCmpIter hpC3 0) (mkCmpIter hpC3 3) =
      some (.ordered .eq, ⟨hpC3, .var 0, ⟨2, 2, 2, 1⟩⟩,
        ⟨hpC3, .var 3, ⟨5, 5, 2, 1⟩⟩) :=
  ⟨by decide, by decide, by decide, by decide, by decide, by decide, by decide⟩

/-- C3 (amended): when the lockstep loop of `compare_pstr_prefixes(i1, i2)`
exhausts both iterators without deciding an ordering, the result is
`Ordered(Equal)` if the focus cell of `i1` equals the focus cell of `i2`;
otherwise `Ordered(Less)` if `i1`'s focus is the empty list;
otherwise `Ordered(Greater)` if `i2`'s focus is the empty list; otherwise,
if both focuses are continuable the result is `Ordered(Equal)`, if exactly
one focus is continuable the result is `FirstIterContinuable` /
`SecondIterContinuable` carrying that side's pending iteratee, and
`Unordered` only when neither focus is continuable. -/
theorem c3_exhausted_classification (fuel : ℕ) (i1 i2 j1 j2 : CmpIterSt)
    (r1 r2 s1 s2 : Option PStrIterStep)
    (h1 : stepOf i1 i1.brent_st.hare = some r1)
    (h2 : stepOf i2 i2.brent_st.hare = some r2)
    (hloop : cmpLoopF fuel i1 i2 r1 r2 = some (.inr (j1, j2, s1, s2))) :
    compare_pstr_prefixes fuel i1 i2 =
      (cmpClassify j1 j2 s1 s2).map (fun r => (r, j1, j2)) ∧
    (j1.focus = j2.focus → cmpClassify j1 j2 s1 s2 = some (.ordered .eq)) ∧
    (j1.focus ≠ j2.focus → j1.focus = emptyList →
      cmpClassify j1 j2 s1 s2 = some (.ordered .lt)) ∧
    (j1.focus ≠ j2.focus → j1.focus ≠ emptyList → j2.focus = emptyList →
      cmpClassify j1 j2 s1 s2 = some (.ordered .gt)) ∧
    (j1.focus ≠ j2.focus → j1.focus ≠ emptyList → j2.focus ≠ emptyList →
      is_continuable j1 = true → is_continuable j2 = true →
      cmpClassify j1 j2 s1 s2 = some (.ordered .eq)) ∧
    (j1.focus ≠ j2.focus → j1.focus ≠ emptyList → j2.focus ≠ emptyList →
      is_continuable j1 = true → is_continuable j2 = false →
      ∀ st, s1 = some st →
        cmpClassify j1 j2 s1 s2 = some (.firstIterContinuable st.iteratee)) ∧
    (j1.focus ≠ j2.focus → j1.focus ≠ emptyList → j2.focus ≠ emptyList →
      is_continuable j1 = false → is_continuable j2 = true →
      ∀ st, s2 = some st →
        cmpClassify j1 j2 s1 s2 = some (.secondIterContinuable st.iteratee)) ∧
    (j1.focus ≠ j2.focus → j1.focus ≠ emptyList → j2.focus ≠ emptyList →
      is_continuable j1 = false → is_continuable j2 = false →
      cmpClassify j1 j2 s1 s2 = some .unordered) := by
  refine ⟨?_, ?_, ?_, ?_, ?_, ?_, ?_, ?_⟩
  · simp only [compare_pstr_prefixes, h1, h2, hloop]
  · intro hf; simp [cmpClassify, hf]
  · intro hf he
    have hne : ¬ (emptyList = j2.focus) := fun hx => hf (he.trans hx)
    simp [cmpClassify, hf, he, hne]
  · intro hf he1 he2; simp [cmpClassify, hf, he1, he2]
  · intro hf he1 he2 hc1 hc2; simp [cmpClassify, hf, he1, he2, hc1, hc2]
  · intro hf he1 he2 hc1 hc2 st hst
    simp [cmpClassify, hf, he1, he2, hc1, hc2, hst]
  · intro hf he1 he2 hc1 hc2 st hst
    simp [cmpClassify, hf, he1, he2, hc1, hc2, hst]
  · intro hf he1 he2 hc1 hc2; simp [cmpClassify, hf, he1, he2, hc1, hc2]

/-- Witness for C3 (amended), at the cyclic-list pair of `hpC3`: the loop
exhausts, both focuses are continuable, and the classification yields
`Ordered(Equal)`. -/
theorem c3_exhausted_classification_witness :
    compare_pstr_prefixes 10 (mkCmpIter hpC3 0) (mkCmpIter hpC3 3) =
      (cmpClassify ⟨hpC3, .var 0, ⟨2, 2, 2, 1⟩⟩ ⟨hpC3, .var 3, ⟨5, 5, 2, 1⟩⟩
          (some ⟨.charIt 0 'a', 2⟩) (some ⟨.charIt 3 'a', 5⟩)).map
        (fun r => (r, ⟨hpC3, .var 0, ⟨2, 2, 2, 1⟩⟩, ⟨hpC3, .var 3, ⟨5, 5, 2, 1⟩⟩)) ∧
    cmpClassify ⟨hpC3, .var 0, ⟨2, 2, 2, 1⟩⟩ ⟨hpC3, .var 3, ⟨5, 5, 2, 1⟩⟩
        (some ⟨.charIt 0 'a', 2⟩) (some ⟨.charIt 3 'a', 5⟩) =
      some (.ordered .eq) :=
  have h := c3_exhausted_classification 10 (mkCmpIter hpC3 0) (mkCmpIter hpC3 3)
    ⟨hpC3, .var 0, ⟨2, 2, 2, 1⟩⟩ ⟨hpC3, .var 3, ⟨5, 5, 2, 1⟩⟩
    (some ⟨.charIt 0 'a', 2⟩) (some ⟨.charIt 3 'a', 5⟩)
    (some ⟨.charIt 0 'a', 2⟩) (some ⟨.charIt 3 'a', 5⟩)
    (by decide) (by decide) (by decide)
  ⟨h.1, h.2.2.2.2.1 (by decide) (by decide) (by decide) (by decide) (by decide)⟩

/-! ## The full partial-string iterator (`HeapPStrIter`) and claim C1 -/

/-- The mutable state of `HeapPStrIter`; the stepper function pointer is
represented by `post_cycle` (`cycle_detected`). -/
structure HeapPStrIterSt where
  focus : Cell
  orig_focus : ℕ
  brent_st : BrentAlgState
  post_cycle : Bool
deriving DecidableEq, Repr

/-- `HeapPStrIter::new`. -/
def HeapPStrIter.new (heap : List Cell) (h : ℕ) : HeapPStrIterSt :=
  ⟨readCell heap h, h, BrentAlgState.new h, false⟩

/-- `self.step(hare)` at the standard fuel. -/
def iterStep (heap : List Cell) (fe : Bool) (curr : ℕ) : Option (Option PStrIterStep) :=
  stepF heap fe (heap.length + 2) curr

/-- First loop of `walk_hare_to_cycle_end`: advance the hare `lam` steps.
`none` models a diverging (or `unwrap`-panicking) `self.step`. -/
def walkAdvance (heap : List Cell) (fe : Bool) : ℕ → ℕ → Option ℕ
  | 0, hare => some hare
  | k + 1, hare =>
    match iterStep heap fe hare with
    | some (some st) => walkAdvance heap fe k st.next_hare
    | _ => none

/-- Second loop of `walk_hare_to_cycle_end` (fuelled): advance tortoise
and hare together until they meet; returns the meeting index. -/
def walkMeet (heap : List Cell) (fe : Bool) : ℕ → ℕ → ℕ → Option ℕ
  | 0, _, _ => none
  | k + 1, tortoise, hare =>
    if hare = tortoise then some tortoise
    else
      match iterStep heap fe tortoise, iterStep heap fe hare with
      | some (some st), some (some sh) => walkMeet heap fe k st.next_hare sh.next_hare
      | _, _ => none

/-- `HeapPStrIter::walk_hare_to_cycle_end`: walk the hare from the start
to `lam` steps in, bring tortoise and hare together, then restore the hare
to the detection point and refocus there. -/
def walk_hare_to_cycle_end (heap : List Cell) (wfuel : ℕ) (s : HeapPStrIterSt) :
    Option HeapPStrIterSt :=
  let orig_hare := s.brent_st.hare
  let fe := decide (s.focus = emptyList)
  match walkAdvance heap fe s.brent_st.lam s.orig_focus with
  | none => none
  | some hare0 =>
    match walkMeet heap fe wfuel s.orig_focus hare0 with
    | none => none
    | some meet =>
        some { s with
          focus := readCell heap orig_hare,
          brent_st := { s.brent_st with hare := orig_hare, tortoise := meet } }

/-- `HeapPStrIter::pre_cycle_discovery_stepper`. The outer `none` models
divergence of the underlying cell chasing or of the walk. -/
def pre_cycle_discovery_stepper (heap : List Cell) (wfuel : ℕ)
    (s : HeapPStrIterSt) : Option (Option (PStrIteratee × HeapPStrIterSt)) :=
  match iterStep heap (decide (s.focus = emptyList)) s.brent_st.hare with
  | none => none
  | some none => some none
  | some (some step) =>
    let s1 : HeapPStrIterSt := { s with focus := readCell heap step.iteratee.focus }
    if isStringTerminator heap s1.focus then
      some (some (step.iteratee, { s1 with
        focus := emptyList,
        brent_st := { s1.brent_st with hare := step.iteratee.focus } }))
    else
      match s1.brent_st.step step.next_hare with
      | (bs, true) =>
          match walk_hare_to_cycle_end heap wfuel { s1 with brent_st := bs } with
          | none => none
          | some s2 => some (some (step.iteratee, { s2 with post_cycle := true }))
      | (bs, false) =>
          some (some (step.iteratee,
            { s1 with focus := readCell heap step.next_hare, brent_st := bs }))

/-- `HeapPStrIter::post_cycle_discovery_stepper`. -/
def post_cycle_discovery_stepper (heap : List Cell) (s : HeapPStrIterSt) :
    Option (Option (PStrIteratee × HeapPStrIterSt)) :=
  if s.brent_st.hare = s.brent_st.tortoise then some none
  else
    match iterStep heap (decide (s.focus = emptyList)) s.brent_st.hare with
    | none => none
    | some none => some none
    | some (some step) =>
        some (some (step.iteratee, { s with
          focus := readCell heap step.next_hare,
          brent_st := { s.brent_st with hare := step.next_hare } }))

/-- `Iterator::next` for `HeapPStrIter`. -/
def iterNext (heap : List Cell) (wfuel : ℕ) (s : HeapPStrIterSt) :
    Option (Option (PStrIteratee × HeapPStrIterSt)) :=
  if s.post_cycle then post_cycle_discovery_stepper heap s
  else pre_cycle_discovery_stepper heap wfuel s

/-- Drive the iterator for at most `n` calls: `some items` when `next`
returned `None` within the budget, `none` when the budget ran out or the
underlying Rust diverged. -/
def iterRun (heap : List Cell) (wfuel : ℕ) : ℕ → HeapPStrIterSt → Option (List PStrIteratee)
  | 0, _ => none
  | n + 1, s =>
    match iterNext heap wfuel s with
    | none => none
    | some none => some []
    | some (some (it, s2)) => (iterRun heap wfuel n s2).map (it :: ·)

/-- Every reference payload of every cell is an in-range heap index (the
hypothesis of C1 as stated). -/
def cellRefsValid (len : ℕ) : Cell → Bool
  | .var h => h < len
  | .attrVar h => h < len
  | .lis h => h < len
  | .str h => h < len
  | .pstrLoc h => h < len
  | .pstrOffset h => h < len
  | _ => true

def heapRefsValid (heap : List Cell) : Bool :=
  heap.all (cellRefsValid heap.length)

/-- A two-cell variable cycle: cell 0 is bound to cell 1 and cell 1 back
to cell 0. All references are in range. -/
def hpC1 : List Cell := [.var 1, .var 0]

theorem hpC1_stepF_diverges :
    ∀ (fuel : ℕ) (fe : Bool), stepF hpC1 fe fuel 0 = none ∧ stepF hpC1 fe fuel 1 = none := by
  intro fuel
  induction fuel with
  | zero => intro fe; exact ⟨rfl, rfl⟩
  | succ n ih =>
    intro fe
    constructor
    · show stepF hpC1 fe n 1 = none
      exact (ih fe).2
    · show stepF hpC1 fe n 0 = none
      exact (ih fe).1

/-- C1 (counterexample): the claim as stated is false. On the heap
`[Var 1, Var 0]` -- every reference tag in range -- the dereferencing loop
inside `HeapPStrIter::step` chases the two variable cells forever, so the
very first `next` call never returns: iteration does not terminate. -/
theorem c1_counterexample :
    ¬ (∀ (heap : List Cell) (h : ℕ), heapRefsValid heap = true →
        ∃ n wfuel l, iterRun heap wfuel n (HeapPStrIter.new heap h) = some l) := by
  intro hcl
  obtain ⟨n, wfuel, l, hl⟩ := hcl hpC1 0 (by decide)
  cases n with
  | zero => exact Option.noConfusion hl
  | succ m =>
    have hstep : iterStep hpC1 (decide ((HeapPStrIter.new hpC1 0).focus = emptyList))
        (HeapPStrIter.new hpC1 0).brent_st.hare = none :=
      (hpC1_stepF_diverges (hpC1.length + 2) _).1
    rw [show iterRun hpC1 wfuel (m + 1) (HeapPStrIter.new hpC1 0) =
        (match iterNext hpC1 wfuel (HeapPStrIter.new hpC1 0) with
         | none => none
         | some none => some []
         | some (some (it, s2)) => (iterRun hpC1 wfuel m s2).map (it :: ·)) from rfl,
      show iterNext hpC1 wfuel (HeapPStrIter.new hpC1 0) =
        pre_cycle_discovery_stepper hpC1 wfuel (HeapPStrIter.new hpC1 0) from rfl] at hl
    unfold pre_cycle_discovery_stepper at hl
    rw [hstep] at hl
    exact Option.noConfusion hl

/-- Bounded totality of the cell-chasing loop: within the standard fuel,
`HeapPStrIter::step` returns at every heap position for either value of
the focus-emptiness flag. -/
def stepTotalB (heap : List Cell) : Bool :=
  (List.range (heap.length + 2)).all fun curr =>
    (stepF heap false (heap.length + 2) curr).isSome &&
    (stepF heap true (heap.length + 2) curr).isSome

/-- One hare move: the `next_hare` of a continuing `step`. -/
def fStep (heap : List Cell) (x : ℕ) : Option ℕ :=
  match stepF heap false (heap.length + 2) x with
  | some (some st) => some st.next_hare
  | _ => none

/-- The hare orbit of the pre-cycle phase, started at `h0`. -/
def orbit (heap : List Cell) (h0 : ℕ) : ℕ → Option ℕ
  | 0 => some h0
  | n + 1 => (orbit heap h0 n).bind (fStep heap)

/-- The value of the orbit (meaningful where the orbit is defined). -/
def xval (heap : List Cell) (h0 n : ℕ) : ℕ := (orbit heap h0 n).getD 0

/-- The Brent state after `n` hare moves (defined along a defined orbit). -/
def brentAt (heap : List Cell) (h0 : ℕ) : ℕ → Option BrentAlgState
  | 0 => some (BrentAlgState.new h0)
  | n + 1 =>
    match brentAt heap h0 n, orbit heap h0 (n + 1) with
    | some bs, some x => some (bs.step x).1
    | _, _ => none

/-- Whether the Brent cycle check fires on the step from position `n`. -/
def detectB (heap : List Cell) (h0 n : ℕ) : Bool :=
  match brentAt heap h0 n, orbit heap h0 (n + 1) with
  | some bs, some x => (bs.step x).2
  | _, _ => false

/-- Whether `next` call number `n` (0-based) takes the plain continuing
branch of the pre-cycle stepper: the step succeeds, the new focus is not a
string terminator, and Brent does not detect a cycle. -/
def continueB (heap : List Cell) (h0 n : ℕ) : Bool :=
  match orbit heap h0 n with
  | some x =>
    match stepF heap false (heap.length + 2) x with
    | some (some st) =>
        !(isStringTerminator heap (readCell heap st.iteratee.focus)) && !(detectB heap h0 n)
    | _ => false
  | none => false

/-- The iterator state entering `next` call number `n`, while in the
pre-cycle phase. -/
def preSt (heap : List Cell) (h0 n : ℕ) : Option HeapPStrIterSt :=
  match orbit heap h0 n, brentAt heap h0 n with
  | some x, some bs => some ⟨readCell heap x, h0, bs, false⟩
  | _, _ => none

theorem readCell_oob {heap : List Cell} {i : ℕ} (h : heap.length ≤ i) :
    readCell heap i = .atomC "$out_of_range" 0 :=
  List.getD_eq_default heap _ h

theorem stepF_oob {heap : List Cell} {fe : Bool} {fuel curr : ℕ}
    (h : heap.length ≤ curr) : stepF heap fe (fuel + 1) curr = some none := by
  simp only [stepF, readCell_oob h]

theorem stepF_some_lt {heap : List Cell} {fe : Bool} {fuel curr : ℕ} {st : PStrIterStep}
    (h : stepF heap fe fuel curr = some (some st)) : curr < heap.length := by
  by_contra hge
  push_neg at hge
  cases fuel with
  | zero => exact Option.noConfusion h
  | succ k =>
      rw [stepF_oob hge] at h
      exact Option.noConfusion (Option.some.inj h)

theorem stepF_focus_ne_empty {heap : List Cell} {fuel curr : ℕ} {st : PStrIterStep}
    (h : stepF heap false fuel curr = some (some st)) :
    readCell heap curr ≠ emptyList := by
  intro he
  cases fuel with
  | zero => exact Option.noConfusion h
  | succ k =>
      simp only [stepF, he, emptyList] at h
      exact Option.noConfusion (Option.some.inj h)

theorem stepF_true_cases (heap : List Cell) :
    ∀ (fuel curr : ℕ), stepF heap true fuel curr = some none ∨
      stepF heap true fuel curr = stepF heap false fuel curr := by
  intro fuel
  induction fuel with
  | zero => intro curr; right; rfl
  | succ k ih =>
    intro curr
    cases hc : readCell heap curr with
    | cstr a => left; simp [stepF, hc]
    | pstrLoc h => simpa only [stepF, hc] using ih h
    | pstr a => right; simp [stepF, hc]
    | pstrOffset p => left; simp [stepF, hc]
    | lis h => right; simp [stepF, hc]
    | str s => right; simp [stepF, hc]
    | atomC n a => left; simp [stepF, hc]
    | var h =>
        by_cases hh : h = curr
        · left; simp [stepF, hc, hh]
        · simpa only [stepF, hc, if_neg hh] using ih h
    | attrVar h =>
        by_cases hh : h = curr
        · left; simp [stepF, hc, hh]
        · simpa only [stepF, hc, if_neg hh] using ih h
    | fixnumC n => left; simp [stepF, hc]
    | charC c => left; simp [stepF, hc]
    | f64C f => left; simp [stepF, hc]
    | consC t => left; simp [stepF, hc]

theorem stepF_halt_any_fe {heap : List Cell} {fuel curr : ℕ}
    (h : stepF heap false fuel curr = some none) (fe : Bool) :
    stepF heap fe fuel curr = some none := by
  cases fe with
  | false => exact h
  | true =>
      rcases stepF_true_cases heap fuel curr with h1 | h1
      · exact h1
      · rw [h1, h]

theorem stepF_focus_cell {heap : List Cell} :
    ∀ {fuel curr : ℕ} {st : PStrIterStep},
      stepF heap false fuel curr = some (some st) →
      readCell heap st.iteratee.focus ≠ emptyList := by
  intro fuel
  induction fuel with
  | zero => intro curr st h; exact Option.noConfusion h
  | succ k ih =>
    intro curr st h
    cases hc : readCell heap curr with
    | cstr a =>
        simp [stepF, hc] at h
        subst h
        simp [hc, emptyList, PStrIteratee.focus]
    | pstrLoc hh =>
        simp only [stepF, hc] at h
        exact ih h
    | pstr a =>
        simp [stepF, hc] at h
        subst h
        simp [hc, emptyList, PStrIteratee.focus]
    | pstrOffset p =>
        cases hp : readCell heap p <;>
          simp [stepF, hc, hp] at h <;>
          (subst h; simp [hc, emptyList, PStrIteratee.focus])
    | lis hh =>
        cases hch : asChar (readCell heap hh) with
        | none => simp [stepF, hc, hch] at h
        | some c =>
            simp [stepF, hc, hch] at h
            subst h
            simp [hc, emptyList, PStrIteratee.focus]
    | str s =>
        cases hs : readCell heap s with
        | atomC name arity =>
            by_cases hna : name = "." ∧ arity = 2
            · cases hch : asChar (readCell heap (s + 1)) with
              | none => simp [stepF, hc, hs, hna, hch] at h
              | some c =>
                  simp [stepF, hc, hs, hna, hch] at h
                  subst h
                  simp [hc, emptyList, PStrIteratee.focus]
            · simp [stepF, hc, hs, hna] at h
        | cstr a => simp [stepF, hc, hs] at h
        | pstr a => simp [stepF, hc, hs] at h
        | pstrLoc hh => simp [stepF, hc, hs] at h
        | pstrOffset p => simp [stepF, hc, hs] at h
        | lis hh => simp [stepF, hc, hs] at h
        | str s2 => simp [stepF, hc, hs] at h
        | var hh => simp [stepF, hc, hs] at h
        | attrVar hh => simp [stepF, hc, hs] at h
        | fixnumC n => simp [stepF, hc, hs] at h
        | charC c => simp [stepF, hc, hs] at h
        | f64C f => simp [stepF, hc, hs] at h
        | consC t => simp [stepF, hc, hs] at h
    | var hh =>
        by_cases hcur : hh = curr
        · simp [stepF, hc, hcur] at h
        · simp only [stepF, hc, if_neg hcur] at h
          exact ih h
    | attrVar hh =>
        by_cases hcur : hh = curr
        · simp [stepF, hc, hcur] at h
        · simp only [stepF, hc, if_neg hcur] at h
          exact ih h
    | atomC n a => simp [stepF, hc] at h
    | fixnumC n => simp [stepF, hc] at h
    | charC c => simp [stepF, hc] at h
    | f64C f => simp [stepF, hc] at h
    | consC t => simp [stepF, hc] at h

theorem orbit_succ (heap : List Cell) (h0 n : ℕ) :
    orbit heap h0 (n + 1) = (orbit heap h0 n).bind (fStep heap) := rfl

theorem orbit_shift (heap : List Cell) (h0 : ℕ) :
    ∀ (d a : ℕ), orbit heap h0 (a + d) =
      (orbit heap h0 a).bind (fun x => orbit heap x d) := by
  intro d
  induction d with
  | zero =>
      intro a
      cases h : orbit heap h0 a <;> simp [h, orbit]
  | succ k ih =>
      intro a
      have h1 : a + (k + 1) = (a + k) + 1 := rfl
      rw [h1, orbit_succ, ih a, Option.bind_assoc]
      exact congrArg _ (funext fun y => (orbit_succ heap y k).symm)

theorem orbit_eq_shift {heap : List Cell} {h0 i j : ℕ}
    (h : orbit heap h0 i = orbit heap h0 j) (d : ℕ) :
    orbit heap h0 (i + d) = orbit heap h0 (j + d) := by
  rw [orbit_shift heap h0 d i, orbit_shift heap h0 d j, h]

theorem orbit_period_mult {heap : List Cell} {h0 b lam : ℕ}
    (hb : orbit heap h0 (b + lam) = orbit heap h0 b) :
    ∀ k, orbit heap h0 (b + k * lam) = orbit heap h0 b := by
  intro k
  induction k with
  | zero => simp
  | succ m ih =>
      have e : b + (m + 1) * lam = (b + m * lam) + lam := by ring
      rw [e]
      have := orbit_eq_shift ih lam
      rw [this, hb]

theorem continueB_eq {heap : List Cell} {h0 n x : ℕ}
    (hx : orbit heap h0 n = some x) :
    continueB heap h0 n =
      match stepF heap false (heap.length + 2) x with
      | some (some st) =>
          !(isStringTerminator heap (readCell heap st.iteratee.focus)) && !(detectB heap h0 n)
      | _ => false := by
  unfold continueB
  rw [hx]

theorem detectB_eq {heap : List Cell} {h0 n : ℕ} {bs : BrentAlgState} {x : ℕ}
    (hb : brentAt heap h0 n = some bs) (hx : orbit heap h0 (n + 1) = some x) :
    detectB heap h0 n = (bs.step x).2 := by
  unfold detectB
  rw [hb, hx]

theorem brentAt_succ_eq {heap : List Cell} {h0 n : ℕ} {bs : BrentAlgState} {x : ℕ}
    (hb : brentAt heap h0 n = some bs) (hx : orbit heap h0 (n + 1) = some x) :
    brentAt heap h0 (n + 1) = some (bs.step x).1 := by
  unfold brentAt
  rw [hb, hx]

theorem preSt_eq {heap : List Cell} {h0 n x : ℕ} {bs : BrentAlgState}
    (hx : orbit heap h0 n = some x) (hb : brentAt heap h0 n = some bs) :
    preSt heap h0 n = some ⟨readCell heap x, h0, bs, false⟩ := by
  unfold preSt
  rw [hx, hb]

theorem orbit_defined_of_continue {heap : List Cell} {h0 n : ℕ}
    (hc : ∀ m, m < n → continueB heap h0 m = true) :
    ∀ m, m ≤ n → (orbit heap h0 m).isSome := by
  intro m
  induction m with
  | zero => intro _; rfl
  | succ k ih =>
    intro hm
    have hk := ih (Nat.le_of_succ_le hm)
    have hck := hc k (Nat.lt_of_succ_le hm)
    obtain ⟨x, hx⟩ := Option.isSome_iff_exists.1 hk
    rw [continueB_eq hx] at hck
    cases hst : stepF heap false (heap.length + 2) x with
    | none => rw [hst] at hck; simp at hck
    | some o =>
      cases o with
      | none => rw [hst] at hck; simp at hck
      | some st =>
          rw [orbit_succ, hx]
          simp [fStep, hst]

theorem brentAt_defined {heap : List Cell} {h0 : ℕ} :
    ∀ {n : ℕ}, (∀ m, m ≤ n → (orbit heap h0 m).isSome) →
      (brentAt heap h0 n).isSome := by
  intro n
  induction n with
  | zero => intro _; rfl
  | succ k ih =>
      intro hdef
      have hb := ih (fun m hm => hdef m (Nat.le_succ_of_le hm))
      obtain ⟨bs, hbs⟩ := Option.isSome_iff_exists.1 hb
      obtain ⟨x, hx⟩ := Option.isSome_iff_exists.1 (hdef (k + 1) (le_refl _))
      unfold brentAt
      rw [hbs, hx]
      rfl

theorem BrentAlgState.step_hare (st : BrentAlgState) (h : ℕ) :
    ((st.step h).1).hare = h := by
  simp only [BrentAlgState.step]
  split_ifs <;> rfl

theorem brentAt_hare {heap : List Cell} {h0 : ℕ} :
    ∀ {n : ℕ} {bs : BrentAlgState} {x : ℕ},
      brentAt heap h0 n = some bs → orbit heap h0 n = some x → bs.hare = x := by
  intro n
  cases n with
  | zero =>
      intro bs x hb hx
      have hb2 : BrentAlgState.new h0 = bs := Option.some.inj hb
      have hx2 : h0 = x := Option.some.inj hx
      rw [← hb2, ← hx2]
      rfl
  | succ k =>
      intro bs x hb hx
      unfold brentAt at hb
      cases hbk : brentAt heap h0 k with
      | none => rw [hbk] at hb; exact Option.noConfusion hb
      | some bsk =>
          rw [hbk, hx] at hb
          have : (bsk.step x).1 = bs := Option.some.inj hb
          rw [← this]
          exact BrentAlgState.step_hare bsk x

theorem stepTotal_isSome {heap : List Cell} (ht : stepTotalB heap = true)
    (fe : Bool) (curr : ℕ) : (stepF heap fe (heap.length + 2) curr).isSome := by
  by_cases hlt : curr < heap.length + 2
  · have hall := List.all_eq_true.1 ht curr (List.mem_range.2 hlt)
    rw [Bool.and_eq_true] at hall
    obtain ⟨h1, h2⟩ := hall
    cases fe with
    | false => exact h1
    | true => exact h2
  · have hle : heap.length ≤ curr := by omega
    rw [show heap.length + 2 = (heap.length + 1) + 1 from rfl, stepF_oob hle]
    rfl

theorem continue_elim {heap : List Cell} {h0 m : ℕ}
    (h : continueB heap h0 m = true) :
    ∃ x st, orbit heap h0 m = some x ∧
      stepF heap false (heap.length + 2) x = some (some st) ∧
      isStringTerminator heap (readCell heap st.iteratee.focus) = false ∧
      detectB heap h0 m = false := by
  cases ho : orbit heap h0 m with
  | none => unfold continueB at h; rw [ho] at h; simp at h
  | some x =>
      rw [continueB_eq ho] at h
      cases hst : stepF heap false (heap.length + 2) x with
      | none => rw [hst] at h; simp at h
      | some o =>
        cases o with
        | none => rw [hst] at h; simp at h
        | some st =>
            rw [hst] at h
            rw [Bool.and_eq_true] at h
            obtain ⟨h1, h2⟩ := h
            refine ⟨x, st, rfl, hst, ?_, ?_⟩
            · cases hterm : isStringTerminator heap (readCell heap st.iteratee.focus) with
              | false => rfl
              | true => rw [hterm] at h1; exact Bool.noConfusion h1
            · cases hdet : detectB heap h0 m with
              | false => rfl
              | true => rw [hdet] at h2; exact Bool.noConfusion h2

/-- The Brent invariant along a continuing pre-cycle run: after `n` hare
moves the tortoise sits at orbit index `2 ^ j - 1`, the power is `2 ^ j`
and `lam` counts the moves past the last teleport. -/
def brentInv (heap : List Cell) (h0 n : ℕ) (bs : BrentAlgState) : Prop :=
  ∃ j : ℕ, orbit heap h0 n = some bs.hare ∧
    orbit heap h0 (2 ^ j - 1) = some bs.tortoise ∧
    bs.power = 2 ^ j ∧ bs.lam = n - (2 ^ j - 1) ∧
    2 ^ j - 1 ≤ n ∧ n < 2 ^ (j + 1) - 1

theorem brent_invariant {heap : List Cell} {h0 : ℕ} :
    ∀ {n : ℕ}, (∀ m, m < n → continueB heap h0 m = true) →
      ∀ {bs : BrentAlgState}, brentAt heap h0 n = some bs → brentInv heap h0 n bs := by
  intro n
  induction n with
  | zero =>
      intro _ bs hbs
      have hb2 : BrentAlgState.new h0 = bs := Option.some.inj hbs
      subst hb2
      refine ⟨0, ?_, ?_, ?_, ?_, ?_, ?_⟩ <;> norm_num [BrentAlgState.new, orbit]
  | succ n ih =>
      intro hc bs hbs
      have hcn : continueB heap h0 n = true := hc n (Nat.lt_succ_self n)
      obtain ⟨xn, stn, hxn, hstn, _, hdetn⟩ := continue_elim hcn
      have hdef1 : (orbit heap h0 (n + 1)).isSome := by
        rw [orbit_succ, hxn]
        simp [fStep, hstn]
      obtain ⟨x1, hx1⟩ := Option.isSome_iff_exists.1 hdef1
      have hbdef : (brentAt heap h0 n).isSome :=
        brentAt_defined (orbit_defined_of_continue (fun m hm => hc m (Nat.lt_succ_of_lt hm)))
      obtain ⟨bsn, hbsn⟩ := Option.isSome_iff_exists.1 hbdef
      have hbs1 : brentAt heap h0 (n + 1) = some (bsn.step x1).1 := brentAt_succ_eq hbsn hx1
      have hbseq : (bsn.step x1).1 = bs := Option.some.inj (hbs1.symm.trans hbs)
      have hdet2 : (bsn.step x1).2 = false := by
        rw [← detectB_eq hbsn hx1]
        exact hdetn
      obtain ⟨j, hhare, htort, hpow, hlam, hle, hlt⟩ := ih (fun m hm => hc m (Nat.lt_succ_of_lt hm)) hbsn
      by_cases hten : x1 = bsn.tortoise
      · rw [show (bsn.step x1).2 = true by simp [BrentAlgState.step, hten]] at hdet2
        exact Bool.noConfusion hdet2
      · have hp1 : (0 : ℕ) < 2 ^ j := Nat.pos_pow_of_pos j (by norm_num)
        by_cases hpows : bsn.lam + 1 = bsn.power
        · have hbs2 : bs = ⟨x1, x1, bsn.power * 2, 0⟩ := by
            rw [← hbseq]
            simp [BrentAlgState.step, hten, hpows]
          have hn1 : n + 1 = 2 ^ (j + 1) - 1 := by
            rw [hpow, hlam] at hpows
            have h2 : (2 : ℕ) ^ (j + 1) = 2 * 2 ^ j := by ring
            omega
          refine ⟨j + 1, ?_, ?_, ?_, ?_, ?_, ?_⟩
          · rw [hbs2]; exact hx1
          · rw [hbs2, ← hn1]; exact hx1
          · rw [hbs2, hpow]; ring
          · rw [hbs2, hn1]; simp
          · rw [← hn1]
          · have h2 : (2 : ℕ) ^ (j + 2) = 2 * 2 ^ (j + 1) := by ring
            have hp2 : (0 : ℕ) < 2 ^ (j + 1) := Nat.pos_pow_of_pos _ (by norm_num)
            omega
        · have hbs2 : bs = { bsn with hare := x1, lam := bsn.lam + 1 } := by
            rw [← hbseq]
            simp [BrentAlgState.step, hten, hpows]
          have hne2 : n + 1 ≠ 2 ^ (j + 1) - 1 := by
            intro he
            apply hpows
            rw [hpow, hlam]
            have h2 : (2 : ℕ) ^ (j + 1) = 2 * 2 ^ j := by ring
            omega
          refine ⟨j, ?_, ?_, ?_, ?_, ?_, ?_⟩
          · rw [hbs2]; exact hx1
          · rw [hbs2]; exact htort
          · rw [hbs2]; exact hpow
          · rw [hbs2, hlam]; simp; omega
          · omega
          · omega

theorem continue_stops (heap : List Cell) (h0 : ℕ) :
    ∃ n, n ≤ 2 ^ (heap.length + 2) + heap.length ∧ continueB heap h0 n = false := by
  by_contra hno
  push_neg at hno
  have hAll : ∀ m, m ≤ 2 ^ (heap.length + 2) + heap.length → continueB heap h0 m = true := by
    intro m hm
    rcases Bool.eq_false_or_eq_true (continueB heap h0 m) with h | h
    · exact h
    · exact absurd h (hno m hm)
  have hN2 : heap.length < 2 ^ (heap.length + 2) :=
    lt_of_lt_of_le (Nat.lt_two_pow heap.length)
      (Nat.pow_le_pow_right (by norm_num) (by omega))
  have hdef : ∀ m, m ≤ 2 ^ (heap.length + 2) + heap.length → (orbit heap h0 m).isSome := by
    intro m hm
    exact orbit_defined_of_continue (fun k hk => hAll k (by omega)) m (le_refl m)
  have key : ∀ i j, i < j → j ≤ heap.length → xval heap h0 i = xval heap h0 j → False := by
    intro i j hij hjN hxij
    obtain ⟨xi, hxi⟩ := Option.isSome_iff_exists.1 (hdef i (by omega))
    obtain ⟨xj, hxj⟩ := Option.isSome_iff_exists.1 (hdef j (by omega))
    have hvij : xi = xj := by
      rw [xval, hxi, xval, hxj] at hxij
      simpa using hxij
    have horb : orbit heap h0 (i + (j - i)) = orbit heap h0 i := by
      have e : i + (j - i) = j := by omega
      rw [e, hxj, hxi, ← hvij]
    have hTge : heap.length ≤ 2 ^ (heap.length + 2) - 1 := by omega
    have hTshift : orbit heap h0 ((2 ^ (heap.length + 2) - 1) + (j - i)) =
        orbit heap h0 (2 ^ (heap.length + 2) - 1) := by
      have hs := orbit_eq_shift horb ((2 ^ (heap.length + 2) - 1) - i)
      have e1 : i + (j - i) + ((2 ^ (heap.length + 2) - 1) - i) =
          (2 ^ (heap.length + 2) - 1) + (j - i) := by omega
      have e2 : i + ((2 ^ (heap.length + 2) - 1) - i) = 2 ^ (heap.length + 2) - 1 := by
        omega
      rw [e1, e2] at hs
      exact hs
    have hMB : (2 ^ (heap.length + 2) - 1) + (j - i) - 1 ≤
        2 ^ (heap.length + 2) + heap.length := by omega
    have hbdefM : (brentAt heap h0 ((2 ^ (heap.length + 2) - 1) + (j - i) - 1)).isSome := by
      apply brentAt_defined
      intro m hm
      exact hdef m (by omega)
    obtain ⟨bsM, hbsM⟩ := Option.isSome_iff_exists.1 hbdefM
    obtain ⟨jj, hhare, htort, hpow, hlamM, hle, hlt⟩ :=
      brent_invariant (fun m hm => hAll m (by omega)) hbsM
    have hjj : jj = heap.length + 2 := by
      have h1 : (2 : ℕ) ^ (jj + 1) = 2 * 2 ^ jj := by ring
      rcases lt_trichotomy jj (heap.length + 2) with hcase | hcase | hcase
      · have hmono : (2 : ℕ) ^ (jj + 1) ≤ 2 ^ (heap.length + 2) :=
          Nat.pow_le_pow_right (by norm_num) (by omega)
        omega
      · exact hcase
      · have hmono : (2 : ℕ) ^ (heap.length + 3) ≤ 2 ^ jj :=
          Nat.pow_le_pow_right (by norm_num) (by omega)
        have h2 : (2 : ℕ) ^ (heap.length + 3) = 2 * 2 ^ (heap.length + 2) := by ring
        omega
    subst hjj
    have hM1 : ((2 ^ (heap.length + 2) - 1) + (j - i) - 1) + 1 =
        (2 ^ (heap.length + 2) - 1) + (j - i) := by omega
    have hxM1 : orbit heap h0 (((2 ^ (heap.length + 2) - 1) + (j - i) - 1) + 1) =
        some bsM.tortoise := by
      rw [hM1, hTshift]
      exact htort
    obtain ⟨xM, stM, hxM, hstM, _, hdetM⟩ :=
      continue_elim (hAll ((2 ^ (heap.length + 2) - 1) + (j - i) - 1) (by omega))
    rw [detectB_eq hbsM hxM1] at hdetM
    rw [show (bsM.step bsM.tortoise).2 = true by simp [BrentAlgState.step]] at hdetM
    exact Bool.noConfusion hdetM
  have hval : ∀ m, m ∈ Finset.range (heap.length + 1) →
      xval heap h0 m ∈ Finset.range heap.length := by
    intro m hm
    have hm2 : m ≤ heap.length := Nat.lt_succ_iff.1 (Finset.mem_range.1 hm)
    obtain ⟨x, st, hx, hst, _, _⟩ := continue_elim (hAll m (by omega))
    have hlt := stepF_some_lt hst
    rw [Finset.mem_range, xval, hx]
    simpa using hlt
  obtain ⟨i, hi, j, hj, hij, hxij⟩ :=
    Finset.exists_ne_map_eq_of_card_lt_of_maps_to
      (by simp only [Finset.card_range]; omega) hval
  have hiN : i ≤ heap.length := Nat.lt_succ_iff.1 (Finset.mem_range.1 hi)
  have hjN : j ≤ heap.length := Nat.lt_succ_iff.1 (Finset.mem_range.1 hj)
  rcases lt_or_gt_of_ne hij with h | h
  · exact key i j h hjN hxij
  · exact key j i h hiN hxij.symm

theorem fStep_elim {heap : List Cell} {x y : ℕ} (h : fStep heap x = some y) :
    ∃ st : PStrIterStep, stepF heap false (heap.length + 2) x = some (some st) ∧
      st.next_hare = y := by
  unfold fStep at h
  cases hst : stepF heap false (heap.length + 2) x with
  | none => rw [hst] at h; exact Option.noConfusion h
  | some o =>
    cases o with
    | none => rw [hst] at h; exact Option.noConfusion h
    | some st => rw [hst] at h; exact ⟨st, rfl, Option.some.inj h⟩

theorem orbit_succ_val {heap : List Cell} {h0 n x : ℕ}
    (hx : orbit heap h0 n = some x) :
    orbit heap h0 (n + 1) = fStep heap x := by
  rw [orbit_succ, hx]
  rfl

theorem walkAdvance_orbit {heap : List Cell} {h0 : ℕ} :
    ∀ (k a xa : ℕ), orbit heap h0 a = some xa →
      (∀ e, e ≤ a + k → (orbit heap h0 e).isSome) →
      ∃ z, walkAdvance heap false k xa = some z ∧ orbit heap h0 (a + k) = some z := by
  intro k
  induction k with
  | zero =>
      intro a xa hxa _
      exact ⟨xa, rfl, hxa⟩
  | succ m ih =>
      intro a xa hxa hdef
      obtain ⟨x1, hx1⟩ := Option.isSome_iff_exists.1 (hdef (a + 1) (by omega))
      have hf : fStep heap xa = some x1 := by
        rw [← orbit_succ_val hxa]
        exact hx1
      obtain ⟨st, hst, hnext⟩ := fStep_elim hf
      have hrec := ih (a + 1) x1 hx1 (fun e he => hdef e (by omega))
      obtain ⟨z, hwa, hoz⟩ := hrec
      refine ⟨z, ?_, ?_⟩
      · unfold walkAdvance iterStep
        rw [hst]
        show walkAdvance heap false m st.next_hare = some z
        rw [hnext]
        exact hwa
      · have e : a + (m + 1) = (a + 1) + m := by omega
        rw [e]
        exact hoz

theorem walkMeet_finds {heap : List Cell} {h0 lam : ℕ} (hlam : 1 ≤ lam) :
    ∀ (d a fuel ta ha : ℕ),
      orbit heap h0 a = some ta →
      orbit heap h0 (a + lam) = some ha →
      orbit heap h0 (a + d) = orbit heap h0 (a + d + lam) →
      (∀ e, e ≤ a + d + lam → (orbit heap h0 e).isSome) →
      d + 1 ≤ fuel →
      ∃ e z, e ≤ d ∧ walkMeet heap false fuel ta ha = some z ∧
        orbit heap h0 (a + e) = some z ∧
        orbit heap h0 (a + e) = orbit heap h0 (a + e + lam) := by
  intro d
  induction d with
  | zero =>
      intro a fuel ta ha hta hha hper _ hfuel
      cases fuel with
      | zero => omega
      | succ f =>
          have hveq : ha = ta := by
            rw [show a + 0 = a from rfl] at hper
            rw [hta, hha] at hper
            exact (Option.some.inj hper.symm)
          refine ⟨0, ta, le_refl 0, ?_, ?_, ?_⟩
          · unfold walkMeet
            rw [if_pos hveq]
          · exact hta
          · rw [show a + 0 = a from rfl] at hper ⊢
            exact hper
  | succ m ih =>
      intro a fuel ta ha hta hha hper hdef hfuel
      cases fuel with
      | zero => omega
      | succ f =>
          by_cases hveq : ha = ta
          · refine ⟨0, ta, Nat.zero_le _, ?_, ?_, ?_⟩
            · unfold walkMeet
              rw [if_pos hveq]
            · exact hta
            · rw [show a + 0 = a from rfl, hta, hha, hveq]
          · obtain ⟨t1, ht1⟩ := Option.isSome_iff_exists.1 (hdef (a + 1) (by omega))
            obtain ⟨hh1, hhh1⟩ := Option.isSome_iff_exists.1 (hdef (a + lam + 1) (by omega))
            have hft : fStep heap ta = some t1 := by
              rw [← orbit_succ_val hta]
              exact ht1
            have hfh : fStep heap ha = some hh1 := by
              rw [← orbit_succ_val hha]
              exact hhh1
            obtain ⟨stt, hstt, hnt⟩ := fStep_elim hft
            obtain ⟨sth, hsth, hnh⟩ := fStep_elim hfh
            have hha2 : orbit heap h0 ((a + 1) + lam) = some hh1 := by
              have e : (a + 1) + lam = a + lam + 1 := by omega
              rw [e]
              exact hhh1
            have hper2 : orbit heap h0 ((a + 1) + m) =
                orbit heap h0 ((a + 1) + m + lam) := by
              have e1 : (a + 1) + m = a + (m + 1) := by omega
              rw [e1]
              exact hper
            obtain ⟨e, z, hem, hwm, hoz, hpz⟩ :=
              ih (a + 1) f t1 hh1 ht1 hha2 hper2
                (fun q hq => hdef q (by omega)) (by omega)
            refine ⟨e + 1, z, by omega, ?_, ?_, ?_⟩
            · unfold walkMeet iterStep
              rw [if_neg hveq, hstt, hsth]
              show walkMeet heap false f stt.next_hare sth.next_hare = some z
              rw [hnt, hnh]
              exact hwm
            · have e1 : a + (e + 1) = (a + 1) + e := by omega
              rw [e1]
              exact hoz
            · have e1 : a + (e + 1) = (a + 1) + e := by omega
              rw [e1]
              exact hpz

theorem stepF_terminator_halt {heap : List Cell} {p : ℕ}
    (ht : isStringTerminator heap (readCell heap p) = true) (k : ℕ) :
    stepF heap true (k + 1) p = some none := by
  cases hc : readCell heap p with
  | atomC name arity => simp [stepF, hc]
  | cstr a => simp [stepF, hc]
  | pstrOffset q => simp [stepF, hc]
  | var h => rw [hc] at ht; simp [isStringTerminator] at ht
  | attrVar h => rw [hc] at ht; simp [isStringTerminator] at ht
  | lis h => rw [hc] at ht; simp [isStringTerminator] at ht
  | str s => rw [hc] at ht; simp [isStringTerminator] at ht
  | pstr a => rw [hc] at ht; simp [isStringTerminator] at ht
  | pstrLoc h => rw [hc] at ht; simp [isStringTerminator] at ht
  | fixnumC n => rw [hc] at ht; simp [isStringTerminator] at ht
  | charC c => rw [hc] at ht; simp [isStringTerminator] at ht
  | f64C f => rw [hc] at ht; simp [isStringTerminator] at ht
  | consC t => rw [hc] at ht; simp [isStringTerminator] at ht

theorem iterRun_halt {heap : List Cell} {wfuel x o : ℕ} {bs : BrentAlgState}
    (hhare : bs.hare = x)
    (hst : stepF heap false (heap.length + 2) x = some none) :
    iterRun heap wfuel 1 ⟨readCell heap x, o, bs, false⟩ = some [] := by
  have hall : ∀ fe, iterStep heap fe x = some none := by
    intro fe
    unfold iterStep
    exact stepF_halt_any_fe hst fe
  show (match iterNext heap wfuel ⟨readCell heap x, o, bs, false⟩ with
    | none => none
    | some none => some []
    | some (some (it, s2)) => (iterRun heap wfuel 0 s2).map (it :: ·)) = some []
  rw [show iterNext heap wfuel ⟨readCell heap x, o, bs, false⟩ =
      pre_cycle_discovery_stepper heap wfuel ⟨readCell heap x, o, bs, false⟩ from rfl]
  unfold pre_cycle_discovery_stepper
  rw [show (⟨readCell heap x, o, bs, false⟩ : HeapPStrIterSt).brent_st.hare = x from hhare ▸ rfl]
  rw [hall]

theorem iterRun_terminator {heap : List Cell} {wfuel x o : ℕ} {bs : BrentAlgState}
    {st : PStrIterStep}
    (hhare : bs.hare = x)
    (hst : stepF heap false (heap.length + 2) x = some (some st))
    (hterm : isStringTerminator heap (readCell heap st.iteratee.focus) = true) :
    iterRun heap wfuel 2 ⟨readCell heap x, o, bs, false⟩ = some [st.iteratee] := by
  have hne : readCell heap x ≠ emptyList := stepF_focus_ne_empty hst
  have hfe : decide (readCell heap x = emptyList) = false := decide_eq_false hne
  have hn1 : iterNext heap wfuel ⟨readCell heap x, o, bs, false⟩ =
      some (some (st.iteratee, ⟨emptyList, o,
        { bs with hare := st.iteratee.focus }, false⟩)) := by
    rw [show iterNext heap wfuel ⟨readCell heap x, o, bs, false⟩ =
        pre_cycle_discovery_stepper heap wfuel ⟨readCell heap x, o, bs, false⟩ from rfl]
    unfold pre_cycle_discovery_stepper
    rw [show (⟨readCell heap x, o, bs, false⟩ : HeapPStrIterSt).brent_st.hare = x
        from hhare ▸ rfl]
    rw [show (⟨readCell heap x, o, bs, false⟩ : HeapPStrIterSt).focus = readCell heap x
        from rfl, hfe]
    rw [show iterStep heap false x = some (some st) from hst]
    simp only [hterm, if_pos]
  have hn2 : iterNext heap wfuel (⟨emptyList, o,
      { bs with hare := st.iteratee.focus }, false⟩ : HeapPStrIterSt) = some none := by
    rw [show iterNext heap wfuel (⟨emptyList, o,
        { bs with hare := st.iteratee.focus }, false⟩ : HeapPStrIterSt) =
        pre_cycle_discovery_stepper heap wfuel
          ⟨emptyList, o, { bs with hare := st.iteratee.focus }, false⟩ from rfl]
    unfold pre_cycle_discovery_stepper
    have hfe2 : decide ((⟨emptyList, o, { bs with hare := st.iteratee.focus }, false⟩ :
        HeapPStrIterSt).focus = emptyList) = true := by
      simp
    rw [hfe2]
    rw [show (⟨emptyList, o, { bs with hare := st.iteratee.focus }, false⟩ :
        HeapPStrIterSt).brent_st.hare = st.iteratee.focus from rfl]
    rw [show iterStep heap true st.iteratee.focus = some none from
      stepF_terminator_halt hterm (heap.length + 1)]
  show (match iterNext heap wfuel ⟨readCell heap x, o, bs, false⟩ with
    | none => none
    | some none => some []
    | some (some (it, s2)) => (iterRun heap wfuel 1 s2).map (it :: ·)) = some [st.iteratee]
  rw [hn1]
  show (match iterNext heap wfuel (⟨emptyList, o,
      { bs with hare := st.iteratee.focus }, false⟩ : HeapPStrIterSt) with
    | none => none
    | some none => some []
    | some (some (it, s2)) => (iterRun heap wfuel 0 s2).map (it :: ·)).map
        (st.iteratee :: ·) = some [st.iteratee]
  rw [hn2]
  rfl

theorem iterNext_continue {heap : List Cell} {h0 n wfuel : ℕ}
    (hcn : continueB heap h0 n = true)
    {sn : HeapPStrIterSt} (hsn : preSt heap h0 n = some sn) :
    ∃ sn1, preSt heap h0 (n + 1) = some sn1 ∧
      ∃ it, iterNext heap wfuel sn = some (some (it, sn1)) := by
  obtain ⟨x, st, hx, hst, hterm, hdet⟩ := continue_elim hcn
  cases hb : brentAt heap h0 n with
  | none =>
      unfold preSt at hsn
      rw [hx, hb] at hsn
      exact Option.noConfusion hsn
  | some bs =>
      have hsn2 : sn = ⟨readCell heap x, h0, bs, false⟩ := by
        rw [preSt_eq hx hb] at hsn
        exact (Option.some.inj hsn).symm
      subst hsn2
      have hhare : bs.hare = x := brentAt_hare hb hx
      have hx1 : orbit heap h0 (n + 1) = some st.next_hare := by
        rw [orbit_succ_val hx]
        simp [fStep, hst]
      have hb1 : brentAt heap h0 (n + 1) = some (bs.step st.next_hare).1 :=
        brentAt_succ_eq hb hx1
      have hdet2 : (bs.step st.next_hare).2 = false := by
        rw [← detectB_eq hb hx1]
        exact hdet
      have hpair : bs.step st.next_hare = ((bs.step st.next_hare).1, false) := by
        conv_lhs => rw [show bs.step st.next_hare =
          ((bs.step st.next_hare).1, (bs.step st.next_hare).2) from rfl]
        rw [hdet2]
      obtain ⟨bs1, hbs1⟩ : ∃ b, bs.step st.next_hare = (b, false) :=
        ⟨(bs.step st.next_hare).1, hpair⟩
      have hb1v : brentAt heap h0 (n + 1) = some bs1 := by
        rw [hb1, hbs1]
      refine ⟨⟨readCell heap st.next_hare, h0, bs1, false⟩,
        preSt_eq hx1 hb1v, st.iteratee, ?_⟩
      have hfe : decide (readCell heap x = emptyList) = false :=
        decide_eq_false (stepF_focus_ne_empty hst)
      rw [show iterNext heap wfuel ⟨readCell heap x, h0, bs, false⟩ =
          pre_cycle_discovery_stepper heap wfuel ⟨readCell heap x, h0, bs, false⟩ from rfl]
      unfold pre_cycle_discovery_stepper
      rw [show (⟨readCell heap x, h0, bs, false⟩ : HeapPStrIterSt).brent_st.hare = x
          from hhare ▸ rfl]
      rw [show (⟨readCell heap x, h0, bs, false⟩ : HeapPStrIterSt).focus =
          readCell heap x from rfl, hfe]
      rw [show iterStep heap false x = some (some st) from hst]
      simp only [hterm, Bool.false_eq_true, if_false]
      rw [hbs1]

theorem postRun {heap : List Cell} (ht : stepTotalB heap = true) (wfuel o : ℕ) :
    ∀ (d y : ℕ) (bs : BrentAlgState), bs.hare = y →
      orbit heap y d = some bs.tortoise →
      ∃ l, iterRun heap wfuel (d + 1) ⟨readCell heap y, o, bs, true⟩ = some l := by
  intro d
  induction d with
  | zero =>
      intro y bs hhare htor
      have hyz : bs.hare = bs.tortoise := by
        rw [hhare]
        exact Option.some.inj htor
      refine ⟨[], ?_⟩
      show (match iterNext heap wfuel ⟨readCell heap y, o, bs, true⟩ with
        | none => none
        | some none => some []
        | some (some (it, s2)) => (iterRun heap wfuel 0 s2).map (it :: ·)) = some []
      rw [show iterNext heap wfuel ⟨readCell heap y, o, bs, true⟩ =
          post_cycle_discovery_stepper heap ⟨readCell heap y, o, bs, true⟩ from rfl]
      unfold post_cycle_discovery_stepper
      simp [hyz]
  | succ m ih =>
      intro y bs hhare htor
      by_cases hyz : bs.hare = bs.tortoise
      · refine ⟨[], ?_⟩
        show (match iterNext heap wfuel ⟨readCell heap y, o, bs, true⟩ with
          | none => none
          | some none => some []
          | some (some (it, s2)) => (iterRun heap wfuel (m + 1) s2).map (it :: ·)) = some []
        rw [show iterNext heap wfuel ⟨readCell heap y, o, bs, true⟩ =
            post_cycle_discovery_stepper heap ⟨readCell heap y, o, bs, true⟩ from rfl]
        unfold post_cycle_discovery_stepper
        simp [hyz]
      · have hsome := stepTotal_isSome ht (decide (readCell heap y = emptyList)) y
        cases hstv : stepF heap (decide (readCell heap y = emptyList)) (heap.length + 2) y with
        | none => rw [hstv] at hsome; exact absurd hsome (by simp)
        | some ov =>
          cases ov with
          | none =>
              refine ⟨[], ?_⟩
              show (match iterNext heap wfuel ⟨readCell heap y, o, bs, true⟩ with
                | none => none
                | some none => some []
                | some (some (it, s2)) =>
                    (iterRun heap wfuel (m + 1) s2).map (it :: ·)) = some []
              rw [show iterNext heap wfuel ⟨readCell heap y, o, bs, true⟩ =
                  post_cycle_discovery_stepper heap ⟨readCell heap y, o, bs, true⟩ from rfl]
              unfold post_cycle_discovery_stepper
              rw [if_neg (show ¬((⟨readCell heap y, o, bs, true⟩ :
                  HeapPStrIterSt).brent_st.hare = (⟨readCell heap y, o, bs, true⟩ :
                  HeapPStrIterSt).brent_st.tortoise) from hhare ▸ hyz)]
              rw [show iterStep heap (decide ((⟨readCell heap y, o, bs, true⟩ :
                  HeapPStrIterSt).focus = emptyList)) (⟨readCell heap y, o, bs, true⟩ :
                  HeapPStrIterSt).brent_st.hare =
                  stepF heap (decide (readCell heap y = emptyList)) (heap.length + 2) y
                  from hhare ▸ rfl]
              rw [hstv]
          | some st =>
              have hfs : stepF heap false (heap.length + 2) y = some (some st) := by
                cases hde : decide (readCell heap y = emptyList) with
                | false => rw [hde] at hstv; exact hstv
                | true =>
                    rw [hde] at hstv
                    rcases stepF_true_cases heap (heap.length + 2) y with hcase | hcase
                    · rw [hcase] at hstv
                      exact Option.noConfusion (Option.some.inj hstv)
                    · rw [← hcase]
                      exact hstv
              have hfstep : fStep heap y = some st.next_hare := by
                unfold fStep
                rw [hfs]
              have htor2 : orbit heap st.next_hare m = some bs.tortoise := by
                have hs := orbit_shift heap y m 1
                have h1 : orbit heap y 1 = fStep heap y :=
                  orbit_succ_val (show orbit heap y 0 = some y from rfl)
                rw [h1, hfstep] at hs
                have e : m + 1 = 1 + m := by omega
                rw [e, hs] at htor
                simpa using htor
              obtain ⟨l, hl⟩ := ih st.next_hare { bs with hare := st.next_hare } rfl htor2
              refine ⟨st.iteratee :: l, ?_⟩
              show (match iterNext heap wfuel ⟨readCell heap y, o, bs, true⟩ with
                | none => none
                | some none => some []
                | some (some (it, s2)) =>
                    (iterRun heap wfuel (m + 1) s2).map (it :: ·)) = some (st.iteratee :: l)
              rw [show iterNext heap wfuel ⟨readCell heap y, o, bs, true⟩ =
                  post_cycle_discovery_stepper heap ⟨readCell heap y, o, bs, true⟩ from rfl]
              unfold post_cycle_discovery_stepper
              rw [if_neg (show ¬((⟨readCell heap y, o, bs, true⟩ :
                  HeapPStrIterSt).brent_st.hare = (⟨readCell heap y, o, bs, true⟩ :
                  HeapPStrIterSt).brent_st.tortoise) from hhare ▸ hyz)]
              rw [show iterStep heap (decide ((⟨readCell heap y, o, bs, true⟩ :
                  HeapPStrIterSt).focus = emptyList)) (⟨readCell heap y, o, bs, true⟩ :
                  HeapPStrIterSt).brent_st.hare =
                  stepF heap (decide (readCell heap y = emptyList)) (heap.length + 2) y
                  from hhare ▸ rfl]
              rw [hstv]
              show (iterRun heap wfuel (m + 1) ⟨readCell heap st.next_hare, o,
                { bs with hare := st.next_hare }, true⟩).map (st.iteratee :: ·) =
                some (st.iteratee :: l)
              rw [hl]
              rfl

theorem iterRun_detect {heap : List Cell} {h0 n0 : ℕ}
    (ht : stepTotalB heap = true)
    (hcont : ∀ m, m < n0 → continueB heap h0 m = true)
    {x : ℕ} (hx : orbit heap h0 n0 = some x)
    {bs : BrentAlgState} (hb : brentAt heap h0 n0 = some bs)
    {st : PStrIterStep} (hst : stepF heap false (heap.length + 2) x = some (some st))
    (hterm : isStringTerminator heap (readCell heap st.iteratee.focus) = false)
    (hdet : detectB heap h0 n0 = true) :
    ∃ k l, iterRun heap (n0 + 1) k ⟨readCell heap x, h0, bs, false⟩ = some l := by
  have hhare : bs.hare = x := brentAt_hare hb hx
  have hx1 : orbit heap h0 (n0 + 1) = some st.next_hare := by
    rw [orbit_succ_val hx]
    simp [fStep, hst]
  have hdefK : ∀ m, m ≤ n0 + 1 → (orbit heap h0 m).isSome := by
    intro m hm
    by_cases hm0 : m ≤ n0
    · exact orbit_defined_of_continue hcont m hm0
    · have he : m = n0 + 1 := by omega
      subst he
      rw [hx1]
      rfl
  obtain ⟨j, hhareI, htort, hpow, hlam, hle, hlt⟩ := brent_invariant hcont hb
  have hdt : (bs.step st.next_hare).2 = true := by
    rw [← detectB_eq hb hx1]
    exact hdet
  have heqt : st.next_hare = bs.tortoise := by
    by_contra hne
    simp [BrentAlgState.step, hne, apply_ite] at hdt
  have hbs1 : (bs.step st.next_hare).1 =
      { bs with hare := st.next_hare, lam := bs.lam + 1 } := by
    simp [BrentAlgState.step, heqt]
  have hper : orbit heap h0 ((2 ^ j - 1) + (bs.lam + 1)) = orbit heap h0 (2 ^ j - 1) := by
    have e : (2 ^ j - 1) + (bs.lam + 1) = n0 + 1 := by omega
    rw [e, hx1, htort, heqt]
  obtain ⟨z0, hwa, hz0⟩ :=
    walkAdvance_orbit (bs.lam + 1) 0 h0 rfl (fun e he => hdefK e (by omega))
  rw [Nat.zero_add] at hz0
  have hper0 : orbit heap h0 (0 + (2 ^ j - 1)) =
      orbit heap h0 (0 + (2 ^ j - 1) + (bs.lam + 1)) := by
    rw [Nat.zero_add]
    exact hper.symm
  obtain ⟨e, z, hez, hwm, hoz, hpz⟩ :=
    walkMeet_finds (by omega) (2 ^ j - 1) 0 (n0 + 1) h0 z0 rfl
      (by rw [Nat.zero_add]; exact hz0) hper0
      (fun q hq => hdefK q (by omega)) (by omega)
  rw [Nat.zero_add] at hoz hpz
  obtain ⟨d, k, hk⟩ : ∃ d k, (n0 + 1) + d = e + k * (bs.lam + 1) := by
    have hdm := Nat.mod_add_div ((n0 + 1) - e) (bs.lam + 1)
    have hrlt : ((n0 + 1) - e) % (bs.lam + 1) < bs.lam + 1 :=
      Nat.mod_lt _ (by omega)
    generalize hT : (bs.lam + 1) * (((n0 + 1) - e) / (bs.lam + 1)) = T at hdm
    by_cases hr0 : ((n0 + 1) - e) % (bs.lam + 1) = 0
    · refine ⟨0, ((n0 + 1) - e) / (bs.lam + 1), ?_⟩
      have hmul : (((n0 + 1) - e) / (bs.lam + 1)) * (bs.lam + 1) = T := by
        rw [← hT]
        ring
      rw [hmul]
      omega
    · refine ⟨(bs.lam + 1) - ((n0 + 1) - e) % (bs.lam + 1),
        ((n0 + 1) - e) / (bs.lam + 1) + 1, ?_⟩
      have hmul : (((n0 + 1) - e) / (bs.lam + 1) + 1) * (bs.lam + 1) = T + (bs.lam + 1) := by
        rw [← hT]
        ring
      rw [hmul]
      omega
  have horbd : orbit heap h0 ((n0 + 1) + d) = some z := by
    rw [hk]
    have hmult := orbit_period_mult hpz.symm k
    rw [hmult]
    exact hoz
  have htor2 : orbit heap st.next_hare d = some z := by
    have hs := orbit_shift heap h0 d (n0 + 1)
    rw [hx1] at hs
    rw [hs] at horbd
    simpa using horbd
  have hwalk : walk_hare_to_cycle_end heap (n0 + 1) ⟨readCell heap st.iteratee.focus, h0,
      ⟨st.next_hare, bs.tortoise, bs.power, bs.lam + 1⟩, false⟩ =
      some ⟨readCell heap st.next_hare, h0,
        ⟨st.next_hare, z, bs.power, bs.lam + 1⟩, false⟩ := by
    have hfw : decide ((⟨readCell heap st.iteratee.focus, h0,
        ⟨st.next_hare, bs.tortoise, bs.power, bs.lam + 1⟩, false⟩ :
        HeapPStrIterSt).focus = emptyList) = false :=
      decide_eq_false (stepF_focus_cell hst)
    simp only [walk_hare_to_cycle_end]
    rw [hfw, hwa]
    show (match walkMeet heap false (n0 + 1) h0 z0 with
      | none => none
      | some meet =>
          some (⟨readCell heap st.next_hare, h0,
            ⟨st.next_hare, meet, bs.power, bs.lam + 1⟩, false⟩ : HeapPStrIterSt)) =
      some ⟨readCell heap st.next_hare, h0, ⟨st.next_hare, z, bs.power, bs.lam + 1⟩, false⟩
    rw [hwm]
  have hpair2 : bs.step st.next_hare =
      ({ bs with hare := st.next_hare, lam := bs.lam + 1 }, true) := by
    conv_lhs => rw [show bs.step st.next_hare =
      ((bs.step st.next_hare).1, (bs.step st.next_hare).2) from rfl]
    rw [hbs1, hdt]
  have hfe : decide (readCell heap x = emptyList) = false :=
    decide_eq_false (stepF_focus_ne_empty hst)
  have hnext : iterNext heap (n0 + 1) ⟨readCell heap x, h0, bs, false⟩ =
      some (some (st.iteratee, ⟨readCell heap st.next_hare, h0,
        ⟨st.next_hare, z, bs.power, bs.lam + 1⟩, true⟩)) := by
    rw [show iterNext heap (n0 + 1) ⟨readCell heap x, h0, bs, false⟩ =
        pre_cycle_discovery_stepper heap (n0 + 1) ⟨readCell heap x, h0, bs, false⟩ from rfl]
    unfold pre_cycle_discovery_stepper
    rw [show (⟨readCell heap x, h0, bs, false⟩ : HeapPStrIterSt).brent_st.hare = x
        from hhare ▸ rfl]
    rw [show (⟨readCell heap x, h0, bs, false⟩ : HeapPStrIterSt).focus =
        readCell heap x from rfl, hfe]
    rw [show iterStep heap false x = some (some st) from hst]
    simp only [hterm, Bool.false_eq_true, if_false]
    rw [hpair2]
    show (match walk_hare_to_cycle_end heap (n0 + 1)
        (⟨readCell heap st.iteratee.focus, h0,
          ⟨st.next_hare, bs.tortoise, bs.power, bs.lam + 1⟩, false⟩ : HeapPStrIterSt) with
      | none => none
      | some s2 => some (some (st.iteratee,
          (⟨s2.focus, s2.orig_focus, s2.brent_st, true⟩ : HeapPStrIterSt)))) =
      some (some (st.iteratee, ⟨readCell heap st.next_hare, h0,
        ⟨st.next_hare, z, bs.power, bs.lam + 1⟩, true⟩))
    rw [hwalk]
  obtain ⟨l, hl⟩ := postRun ht (n0 + 1) h0 d st.next_hare
    ⟨st.next_hare, z, bs.power, bs.lam + 1⟩ rfl htor2
  refine ⟨d + 2, st.iteratee :: l, ?_⟩
  show (match iterNext heap (n0 + 1) ⟨readCell heap x, h0, bs, false⟩ with
    | none => none
    | some none => some []
    | some (some (it, s2)) => (iterRun heap (n0 + 1) (d + 1) s2).map (it :: ·)) =
    some (st.iteratee :: l)
  rw [hnext]
  show (iterRun heap (n0 + 1) (d + 1) ⟨readCell heap st.next_hare, h0,
    ⟨st.next_hare, z, bs.power, bs.lam + 1⟩, true⟩).map (st.iteratee :: ·) =
    some (st.iteratee :: l)
  rw [hl]
  rfl

theorem runlift {heap : List Cell} {h0 wfuel : ℕ} :
    ∀ (n k : ℕ), (∀ m, m < n → continueB heap h0 m = true) →
      ∀ sn, preSt heap h0 n = some sn →
      (∃ l, iterRun heap wfuel k sn = some l) →
      ∃ l, iterRun heap wfuel (n + k) (HeapPStrIter.new heap h0) = some l := by
  intro n
  induction n with
  | zero =>
      intro k _ sn hsn hrun
      have hnew : HeapPStrIter.new heap h0 = sn := by
        have h1 : preSt heap h0 0 =
            some ⟨readCell heap h0, h0, BrentAlgState.new h0, false⟩ := rfl
        rw [h1] at hsn
        exact Option.some.inj hsn
      rw [Nat.zero_add, hnew]
      exact hrun
  | succ n ih =>
      intro k hc sn1 hsn1 hrun
      have hdef : ∀ m, m ≤ n → (orbit heap h0 m).isSome :=
        orbit_defined_of_continue (fun m hm => hc m (by omega))
      obtain ⟨x, hx⟩ := Option.isSome_iff_exists.1 (hdef n (le_refl n))
      obtain ⟨bs, hb⟩ := Option.isSome_iff_exists.1 (brentAt_defined hdef)
      have hsn : preSt heap h0 n = some ⟨readCell heap x, h0, bs, false⟩ := preSt_eq hx hb
      obtain ⟨sn1', hsn1', it, hnext⟩ := iterNext_continue (hc n (by omega)) hsn
      have hs1eq : sn1' = sn1 := Option.some.inj (hsn1'.symm.trans hsn1)
      subst hs1eq
      obtain ⟨l, hl⟩ := hrun
      have hrun2 : ∃ l2, iterRun heap wfuel (k + 1) ⟨readCell heap x, h0, bs, false⟩ =
          some l2 := by
        refine ⟨it :: l, ?_⟩
        show (match iterNext heap wfuel ⟨readCell heap x, h0, bs, false⟩ with
          | none => none
          | some none => some []
          | some (some (it2, s2)) => (iterRun heap wfuel k s2).map (it2 :: ·)) =
          some (it :: l)
        rw [hnext]
        show (iterRun heap wfuel k sn1').map (it :: ·) = some (it :: l)
        rw [hl]
        rfl
      have hres := ih (k + 1) (fun m hm => hc m (by omega)) _ hsn hrun2
      have e : n + (k + 1) = (n + 1) + k := by omega
      rw [e] at hres
      exact hres

/-- C1 (amended): if every call of `HeapPStrIter::step` returns -- the
heap has no `Var`/`AttrVar`/`PStrLoc` reference cycle reachable within the
addressable range, captured by the decidable bound `stepTotalB` -- then
iterating `HeapPStrIter::new(heap, h)` terminates: some finite number of
`next` calls yields the items and then `None`, for a sufficient walk
budget. Brent cycle detection fires within `2 ^ (heap.length + 2) +
heap.length` steps, the hare walk then meets the tortoise, and the
post-cycle stepper stops when the hare returns to the cycle end. -/
theorem c1_iterator_terminates (heap : List Cell) (h0 : ℕ)
    (ht : stepTotalB heap = true) :
    ∃ n wfuel l, iterRun heap wfuel n (HeapPStrIter.new heap h0) = some l := by
  obtain ⟨nB, hnB, hfalse⟩ := continue_stops heap h0
  have hex : ∃ n, continueB heap h0 n = false := ⟨nB, hfalse⟩
  have hn0 : continueB heap h0 (Nat.find hex) = false := Nat.find_spec hex
  have hmin : ∀ m, m < Nat.find hex → continueB heap h0 m = true := by
    intro m hm
    have hnm := Nat.find_min hex hm
    cases hcb : continueB heap h0 m with
    | false => exact absurd hcb hnm
    | true => rfl
  have hdef : ∀ m, m ≤ Nat.find hex → (orbit heap h0 m).isSome :=
    orbit_defined_of_continue hmin
  obtain ⟨x, hx⟩ := Option.isSome_iff_exists.1 (hdef (Nat.find hex) (le_refl _))
  obtain ⟨bs, hb⟩ := Option.isSome_iff_exists.1 (brentAt_defined hdef)
  have hhare : bs.hare = x := brentAt_hare hb hx
  have hsome := stepTotal_isSome ht false x
  cases hstv : stepF heap false (heap.length + 2) x with
  | none => rw [hstv] at hsome; exact absurd hsome (by simp)
  | some ov =>
    cases ov with
    | none =>
        obtain ⟨l, hlift⟩ := runlift (Nat.find hex) 1 hmin _ (preSt_eq hx hb)
          ⟨[], iterRun_halt hhare hstv⟩
        exact ⟨Nat.find hex + 1, 0, l, hlift⟩
    | some st =>
        cases hterm : isStringTerminator heap (readCell heap st.iteratee.focus) with
        | true =>
            obtain ⟨l, hlift⟩ := runlift (Nat.find hex) 2 hmin _ (preSt_eq hx hb)
              ⟨[st.iteratee], iterRun_terminator hhare hstv hterm⟩
            exact ⟨Nat.find hex + 2, 0, l, hlift⟩
        | false =>
            have hdet : detectB heap h0 (Nat.find hex) = true := by
              cases hd : detectB heap h0 (Nat.find hex) with
              | true => rfl
              | false =>
                  have hcn : continueB heap h0 (Nat.find hex) = true := by
                    rw [continueB_eq hx, hstv]
                    show (!(isStringTerminator heap (readCell heap st.iteratee.focus)) &&
                      !(detectB heap h0 (Nat.find hex))) = true
                    rw [hterm, hd]
                    rfl
                  rw [hcn] at hn0
                  exact Bool.noConfusion hn0
            obtain ⟨k, l, hrun⟩ := iterRun_detect ht hmin hx hb hstv hterm hdet
            obtain ⟨l2, hlift⟩ := runlift (Nat.find hex) k hmin _ (preSt_eq hx hb) ⟨l, hrun⟩
            exact ⟨Nat.find hex + k, Nat.find hex + 1, l2, hlift⟩

/-- Witness for C1: on the one-cell heap holding the empty list the
hypothesis is decidable and iteration terminates. -/
theorem c1_iterator_terminates_witness :
    stepTotalB [Cell.atomC "[]" 0] = true ∧
    ∃ n wfuel l, iterRun [Cell.atomC "[]" 0] wfuel n
      (HeapPStrIter.new [Cell.atomC "[]" 0] 0) = some l :=
  ⟨by decide, c1_iterator_terminates [Cell.atomC "[]" 0] 0 (by decide)⟩
